import Mathlib

/-!
Verification development for the auto-code convergence loop engine.

The Rust sources are shallowly embedded: Rust `String` becomes `List Char`
(Unicode scalar values, as in Rust), machine integers become `Nat`/`Int` with
explicit saturation where the source saturates, fallible functions return
`Except`/`Option`, and the filesystem state touched by the checkpoint manager
becomes a `Finset` of directory names.  Each definition carries a note naming
the Rust item it translates.
-/

namespace AutoCode

/-- Rust strings, modelled as their sequence of Unicode scalar values. -/
abbrev Str := List Char

/-- Coercion helper from Lean string literals to the `Str` model. -/
def str (s : String) : Str := s.data

/-- u32 saturation bound used by `saturating_add` in the sources. -/
def u32Max : Nat := 2 ^ 32 - 1

/-- Saturating cap at `u32::MAX`, modelling `u32::saturating_add` results. -/
def sat32 (n : Nat) : Nat := min n u32Max

/-- The Unicode White_Space property, the set recognised by Rust
`char::is_whitespace`, by `str::trim`, and by the regex class `\s`. -/
def rustIsWhitespace (c : Char) : Bool :=
  let n := c.toNat
  (9 ≤ n && n ≤ 13) || n = 32 || n = 133 || n = 160 || n = 5760 ||
  (8192 ≤ n && n ≤ 8202) || n = 8232 || n = 8233 || n = 8239 || n = 8287 || n = 12288

/-- Leading-whitespace removal, as in Rust `str::trim_start`. -/
def trimStartChars (l : Str) : Str := l.dropWhile rustIsWhitespace

/-- Trailing-whitespace removal, as in Rust `str::trim_end`. -/
def trimEndChars (l : Str) : Str := (l.reverse.dropWhile rustIsWhitespace).reverse

/-- Both-ends whitespace removal, as in Rust `str::trim`. -/
def trimChars (l : Str) : Str := trimEndChars (trimStartChars l)

/-- UTF-8 byte length of a modelled string, as Rust `str::len`. -/
def byteLen (l : Str) : Nat := (l.map Char.utf8Size).sum

/-- Byte-slicing `&text[..m]`: `some` prefix when `m` bytes end exactly on a
character boundary within the string, `none` when the slice would panic
(mid-character index or index past the end). -/
def takeBytes : Str → Nat → Option Str
  | _, 0 => some []
  | [], _ + 1 => none
  | c :: rest, m + 1 =>
    if c.utf8Size ≤ m + 1 then
      (takeBytes rest (m + 1 - c.utf8Size)).map (fun p => c :: p)
    else
      none

/-- Decimal rendering of an integer, as Rust `format!` of an `i32`. -/
def intStr (i : Int) : Str := (toString i).data

/-- `CommandResult` from `src/core/executor.rs`. -/
structure CommandResult where
  command : Str
  exit_code : Int
  stdout : Str
  stderr : Str
  duration_ms : Nat
  timed_out : Bool
  attempt : Nat
deriving Repr, DecidableEq

/-- `CommandResult::success`: exit code 0 and not timed out. -/
def CommandResult.success (r : CommandResult) : Bool :=
  decide (r.exit_code = 0) && !r.timed_out

/-- The text built by `CommandResult::output_summary` before the length cap:
trimmed stdout and trimmed stderr joined by a newline, falling back to
`exit_code=N` when both are empty. -/
def summaryText (r : CommandResult) : Str :=
  let s1 := trimChars r.stdout
  let s2 := trimChars r.stderr
  let text := if s2.isEmpty then s1 else if s1.isEmpty then s2 else s1 ++ '\n' :: s2
  if text.isEmpty then str "exit_code=" ++ intStr r.exit_code else text

/-- `CommandResult::output_summary` from `src/core/executor.rs`.  The result is
`none` exactly when the Rust code panics: `&text[..max_chars]` requires the
byte index `max_chars` to fall on a character boundary. -/
def output_summary (r : CommandResult) (max_chars : Nat) : Option Str :=
  let text := summaryText r
  if byteLen text > max_chars then
    (takeBytes text max_chars).map (fun p => p ++ str "...")
  else
    some text

/-- Sequence-prefix test (needle, haystack), used to model `str::contains` and
the hand-rolled scanners below. -/
def hasPrefixSeq : Str → Str → Bool
  | [], _ => true
  | _ :: _, [] => false
  | p :: ps, c :: cs => p = c && hasPrefixSeq ps cs

/-- Substring test (needle, haystack), as Rust `str::contains` on literal
needles. -/
def isSubstring (needle : Str) : Str → Bool
  | [] => needle.isEmpty
  | c :: rest => hasPrefixSeq needle (c :: rest) || isSubstring needle rest

/-- `cargo_command_requires_manifest` from `src/core/executor.rs`: the
workspace guard deciding whether a command needs a local `Cargo.toml`. -/
def cargo_command_requires_manifest (command : Str) : Bool :=
  let tokens := (command.splitOnP (fun c => rustIsWhitespace c)).filter (fun t => !t.isEmpty)
  match tokens with
  | [] => false
  | first :: rest =>
    if first ≠ str "cargo" then false
    else if isSubstring (str "--manifest-path") command then false
    else
      match rest.find? (fun t =>
          !(t.head? == some '-') && !(t.head? == some '+') && !t.contains '=') with
      | none => true
      | some sub =>
        !(sub = str "new" || sub = str "init" || sub = str "install" ||
          sub = str "search" || sub = str "login" || sub = str "logout" ||
          sub = str "help" || sub = str "version" || sub = str "--version" ||
          sub = str "-V")

/-- One `run_once` outcome supplied by the environment: `error` models a spawn
or wait failure propagated with `?`, `ok` a captured `CommandResult`. -/
abbrev AttemptOracle := Nat → Except Str CommandResult

/-- The retry loop body of `CommandExecutor::run`: attempts are numbered from
`k`, at most `n` more are made, `last` holds the previous non-success. -/
def runAttemptsGo (oracle : AttemptOracle) : Nat → Nat → Option CommandResult →
    Except Str CommandResult
  | _, 0, last =>
    match last with
    | some r => .ok r
    | none => .error (str "unexpected empty execution result")
  | k, n + 1, _ =>
    match oracle k with
    | .error e => .error e
    | .ok r => if r.success then .ok r else runAttemptsGo oracle (k + 1) n (some r)

/-- Number of `run_once` calls the retry loop makes (stopping on the first
success or the first propagated error). -/
def runAttemptsCount (oracle : AttemptOracle) : Nat → Nat → Nat
  | _, 0 => 0
  | k, n + 1 =>
    match oracle k with
    | .error _ => 1
    | .ok r => if r.success then 1 else 1 + runAttemptsCount oracle (k + 1) n

/-- `CommandExecutor::run` from `src/core/executor.rs`.  `manifest_exists`
models `Cargo.toml` presence in the workdir; `oracle` models `run_once`.
`attempts = max_retry.saturating_add(1)`. -/
def CommandExecutor.run (oracle : AttemptOracle) (max_retry : Nat)
    (manifest_exists : Bool) (command : Str) : Except Str CommandResult :=
  if (trimChars command).isEmpty then .error (str "empty command is not allowed")
  else if cargo_command_requires_manifest command && !manifest_exists then
    .error (str "requires local Cargo.toml")
  else
    runAttemptsGo oracle 1 (sat32 (max_retry + 1)) none

/-- Duration of one second in nanoseconds. -/
def oneSecondNanos : Nat := 1000000000

/-- The fair-share provider timeout computed per requirement in
`EngineRuntime::run` (`src/plugin/prd_runner/loop_engine/driver.rs`,
lines 142-150).  Durations are nanosecond counts; `Duration / u32` divides
the total nanosecond count, flooring. -/
def effective_provider_timeout (provider_timeout remaining_runtime : Nat)
    (req_count req_idx : Nat) : Nat :=
  let pending_requirements := req_count - req_idx
  let fair_share_timeout :=
    if pending_requirements > 0 then remaining_runtime / pending_requirements
    else remaining_runtime
  let fair_share_timeout := max fair_share_timeout oneSecondNanos
  min provider_timeout fair_share_timeout

/-- `ConvergenceGuard::remaining` from `src/loop_engine/convergence.rs`:
`max_runtime.saturating_sub(elapsed)` on nanosecond counts. -/
def ConvergenceGuard.remaining (max_runtime elapsed : Nat) : Nat :=
  max_runtime - elapsed

/-!  Pass-condition evaluation (`src/loop_engine/pass_condition.rs`).

The regexes of the source are compiled into direct scanners.  Each scanner
tries the pattern at every position from the left, which is the leftmost-match
semantics of `Regex::captures`; greedy/lazy repetition is resolved by hand
where the character classes are disjoint (noted per definition).  The regex
crate runs these patterns in Unicode mode: `\d` is `\p{Nd}` (any Unicode
decimal digit), the explicit class `[^0-9]` excludes only the ASCII digits,
and `(?i)` matches by Unicode simple case folding.  The captures are then fed
to `str::parse::<i32>` / `str::parse::<f64>`, which accept ASCII digits only,
so a capture holding a non-ASCII decimal digit makes the parse fail; where the
source propagates that failure with `?` the model returns the same error. -/

/-- The Unicode general category `Nd` (decimal digit) as half-open ranges of
code points — the regex class `\d` in the (default) Unicode mode of the regex
crate.  The table is Unicode 15.1 (the Unicode 14 table plus the Kawi and Nag
Mundari digits); later Unicode versions only add digits of newly encoded
scripts. -/
def ndRanges : List (Nat × Nat) :=
  [(48, 57), (1632, 1641), (1776, 1785), (1984, 1993), (2406, 2415),
   (2534, 2543), (2662, 2671), (2790, 2799), (2918, 2927), (3046, 3055),
   (3174, 3183), (3302, 3311), (3430, 3439), (3558, 3567), (3664, 3673),
   (3792, 3801), (3872, 3881), (4160, 4169), (4240, 4249), (6112, 6121),
   (6160, 6169), (6470, 6479), (6608, 6617), (6784, 6793), (6800, 6809),
   (6992, 7001), (7088, 7097), (7232, 7241), (7248, 7257), (42528, 42537),
   (43216, 43225), (43264, 43273), (43472, 43481), (43504, 43513),
   (43600, 43609), (44016, 44025), (65296, 65305), (66720, 66729),
   (68912, 68921), (69734, 69743), (69872, 69881), (69942, 69951),
   (70096, 70105), (70384, 70393), (70736, 70745), (70864, 70873),
   (71248, 71257), (71360, 71369), (71472, 71481), (71904, 71913),
   (72016, 72025), (72784, 72793), (73040, 73049), (73120, 73129),
   (73552, 73561), (92768, 92777), (92864, 92873), (93008, 93017),
   (120782, 120831), (123200, 123209), (123632, 123641), (124144, 124153),
   (125264, 125273), (130032, 130041)]

/-- Membership in the regex class `\d` (`\p{Nd}`). -/
def isNdDigit (c : Char) : Bool :=
  ndRanges.any (fun p => p.1 ≤ c.toNat && c.toNat ≤ p.2)

/-- Does `c` match the pattern character `p` under the `(?i)` flag?  The regex
crate folds by Unicode simple case folding; the pattern literals in this file
use only uncased CJK characters and lowercase ASCII letters, whose simple-fold
closures are the two ASCII cases plus `ſ` (U+017F, folding with `s`) and the
Kelvin sign (U+212A, folding with `k`). -/
def foldMatches (p c : Char) : Bool :=
  c = p || c.toLower = p || (p = 's' && c.toNat = 383) || (p = 'k' && c.toNat = 8490)

/-- Case-insensitive prefix strip under Unicode simple case folding (the
pattern is the first argument, given in lowercase): `some` remainder on
success. -/
def stripPrefixCI : Str → Str → Option Str
  | [], s => some s
  | _ :: _, [] => none
  | p :: ps, c :: cs => if foldMatches p c then stripPrefixCI ps cs else none

/-- Shorthand for dropping the regex class `\s*` (Unicode whitespace). -/
def dropWs (s : Str) : Str := s.dropWhile rustIsWhitespace

/-- Decimal digit run to a natural number (ASCII digits, most significant
first), as the numeric part of `str::parse`. -/
def digitsToNat (ds : Str) : Nat :=
  ds.foldl (fun acc c => 10 * acc + (c.toNat - 48)) 0

/-- Match of `(?:退出码|exit\s*code)\s*[=:]\s*(-?\d+)` anchored at the start of
`s`, returning the capture (sign included).  `\d` is any Unicode decimal
digit.  All adjacent classes are disjoint, so greedy repetition needs no
backtracking, except `-?` which fails over to no sign only when no digit
follows the sign (handled below). -/
def exitCapAt (s : Str) : Option Str :=
  let afterKey :=
    match stripPrefixCI (str "退出码") s with
    | some rest => some rest
    | none =>
      match stripPrefixCI (str "exit") s with
      | some r1 => stripPrefixCI (str "code") (dropWs r1)
      | none => none
  match afterKey with
  | none => none
  | some rest =>
    match dropWs rest with
    | [] => none
    | c :: r2 =>
      if c = '=' || c = ':' then
        let r3 := dropWs r2
        let neg := r3.head? = some '-'
        let r4 := if neg then r3.drop 1 else r3
        let ds := r4.takeWhile isNdDigit
        if ds.isEmpty then none else some (if neg then '-' :: ds else ds)
      else none

/-- Leftmost match of the exit-code regex over the whole condition text. -/
def findExitCap : Str → Option Str
  | [] => none
  | c :: rest =>
    match exitCapAt (c :: rest) with
    | some cap => some cap
    | none => findExitCap rest

/-- `str::parse::<i32>` on an optionally signed digit capture: `none` when a
digit is not an ASCII digit (the parser accepts `0`-`9` only, while the regex
capture may hold any Unicode decimal digit) or on i32 overflow. -/
def parseI32 (cap : Str) : Option Int :=
  let neg := cap.head? = some '-'
  let ds := if neg then cap.drop 1 else cap
  if ds.all Char.isDigit then
    let v : Int := if neg then -(digitsToNat ds : Int) else (digitsToNat ds : Int)
    if -(2 ^ 31) ≤ v ∧ v ≤ 2 ^ 31 - 1 then some v else none
  else none

/-- `parse_exit_code` from `src/loop_engine/pass_condition.rs`: the capture of
the exit-code regex parsed as `i32`, parse failure propagated as an error. -/
def parse_exit_code (condition : Str) : Except Str (Option Int) :=
  match findExitCap condition with
  | none => .ok none
  | some cap =>
    match parseI32 cap with
    | some v => .ok (some v)
    | none => .error (str "failed to parse exit code in pass condition")

/-- Exact rational value of a decimal numeral split into integer part and
fraction part (each an ASCII digit run). -/
def qOfParts (ip fp : Str) : ℚ :=
  (digitsToNat ip : ℚ) + (digitsToNat fp : ℚ) / (10 ^ fp.length : ℚ)

/-!  An exact model of the `f64` values the pass condition computes with.  A
nonnegative double is a dyadic rational (kept exactly as a `ℚ`) or infinity;
`str::parse::<f64>` is correctly rounded round-to-nearest-ties-to-even, and
`+` rounds the exact sum the same way.  No value in this file is negative and
no operation here produces a NaN, so neither is represented. -/

/-- A nonnegative IEEE double: a finite value (held exactly) or `+inf`. -/
inductive F64 where
  | finite (val : ℚ)
  | inf
deriving Repr, DecidableEq

/-- Floor of a nonnegative rational, as a natural number. -/
def qFloorNN (x : ℚ) : Nat := x.num.toNat / x.den

/-- Round a nonnegative rational to the nearest natural number, ties to
even. -/
def rheNN (x : ℚ) : Nat :=
  let n := qFloorNN x
  let r := x - (n : ℚ)
  if r < 1 / 2 then n
  else if 1 / 2 < r then n + 1
  else if n % 2 = 0 then n else n + 1

/-- For `1 ≤ q`: the floor of the base-2 logarithm, by halving (`fuel` bounds
the recursion and is sufficient whenever `q < 2 ^ fuel`). -/
def floorLog2Up : Nat → ℚ → Nat
  | 0, _ => 0
  | fuel + 1, q => if 2 ≤ q then floorLog2Up fuel (q / 2) + 1 else 0

/-- For `0 < q < 1`: the smallest `k` with `1 ≤ q * 2 ^ k`, by doubling
(`fuel` is sufficient whenever `2 ^ fuel * q ≥ 1`). -/
def floorLog2Down : Nat → ℚ → Nat
  | 0, _ => 0
  | fuel + 1, q => if 1 ≤ q then 0 else floorLog2Down fuel (2 * q) + 1

/-- `⌊log₂ q⌋` for a positive rational, given sufficient fuel. -/
def floorLog2 (fuel : Nat) (q : ℚ) : Int :=
  if 1 ≤ q then (floorLog2Up fuel q : Int) else -(floorLog2Down fuel q : Int)

/-- Round a nonnegative rational to the nearest double (ties to even): zero,
subnormals (fixed scale `2 ^ (-1074)`), normal numbers (53-bit significand),
and overflow to infinity at `2 ^ 1024` — the IEEE-754 binary64 rounding that
`str::parse::<f64>` and the arithmetic below perform.  `fuel` must bound the
binary magnitude of `q` (callers below pass a bound derived from the digit
count). -/
def roundF64 (fuel : Nat) (q : ℚ) : F64 :=
  if q = 0 then .finite 0
  else
    let e := floorLog2 fuel q
    if e < -1022 then
      .finite ((rheNN (q * (2 : ℚ) ^ (1074 : Int)) : ℚ) * (2 : ℚ) ^ (-1074 : Int))
    else
      let m := rheNN (q * (2 : ℚ) ^ (52 - e))
      let v := (m : ℚ) * (2 : ℚ) ^ (e - 52)
      if (2 : ℚ) ^ (1024 : Int) ≤ v then .inf else .finite v

/-- `f64::EPSILON` (`2 ^ (-52)`), the tolerance the coverage comparison
adds. -/
def f64Epsilon : F64 := .finite ((2 : ℚ) ^ (-52 : Int))

/-- IEEE addition of nonnegative doubles: exact sum, rounded.  Finite doubles
lie below `2 ^ 1024` and nonzero ones at or above `2 ^ (-1074)`, so the
constant fuel bounds the magnitude of every exact sum. -/
def f64Add : F64 → F64 → F64
  | .inf, _ => .inf
  | .finite _, .inf => .inf
  | .finite a, .finite b => roundF64 2200 (a + b)

/-- The `>=` comparison on nonnegative doubles. -/
def f64Ge : F64 → F64 → Bool
  | .inf, _ => true
  | .finite _, .inf => false
  | .finite a, .finite b => decide (b ≤ a)

/-- `str::parse::<f64>` on a captured `\d+(?:\.\d+)?` numeral, split at the
decimal point.  The parse accepts ASCII digits only, so a capture holding a
non-ASCII Unicode digit fails; otherwise the exact decimal value is correctly
rounded to a double.  Since `q < 10 ^ |ip| < 2 ^ (4 * |ip|)` and a nonzero `q`
is at least `10 ^ (-|fp|)`, the fuel passed to `roundF64` is sufficient. -/
def parseF64 (ip fp : Str) : Option F64 :=
  if (ip ++ fp).all Char.isDigit then
    some (roundF64 (4 * (ip.length + fp.length) + 8) (qOfParts ip fp))
  else none

/-- Match of `(?:覆盖率|coverage)\s*(?:>=|≥)\s*(\d+(?:\.\d+)?)` anchored at the
start of `s`, returning the raw capture split at the decimal point.  `\d` is
any Unicode decimal digit; `\d` and `\s` are disjoint, so the greedy runs are
the unique maximal ones. -/
def covThreshAt (s : Str) : Option (Str × Str) :=
  let afterKey :=
    match stripPrefixCI (str "覆盖率") s with
    | some rest => some rest
    | none => stripPrefixCI (str "coverage") s
  match afterKey with
  | none => none
  | some rest =>
    let r1 := dropWs rest
    let r2 :=
      if hasPrefixSeq (str ">=") r1 then some (r1.drop 2)
      else if r1.head? = some '≥' then some (r1.drop 1)
      else none
    match r2 with
    | none => none
    | some r3 =>
      let r4 := dropWs r3
      let ip := r4.takeWhile isNdDigit
      if ip.isEmpty then none
      else
        let r5 := r4.drop ip.length
        let fp :=
          if r5.head? = some '.' then
            let f := (r5.drop 1).takeWhile isNdDigit
            if f.isEmpty then [] else f
          else []
        some (ip, fp)

/-- Leftmost match of the coverage-threshold regex over the condition text. -/
def findCovThresh : Str → Option (Str × Str)
  | [] => none
  | c :: rest =>
    match covThreshAt (c :: rest) with
    | some capture => some capture
    | none => findCovThresh rest

/-- `parse_coverage_threshold` from `src/loop_engine/pass_condition.rs`: the
capture of the coverage regex parsed as `f64`, a parse failure (a capture with
non-ASCII digits) propagated as an error via `.context(...)?`. -/
def parse_coverage_threshold (condition : Str) : Except Str (Option F64) :=
  match findCovThresh condition with
  | none => .ok none
  | some (ip, fp) =>
    match parseF64 ip fp with
    | some v => .ok (some v)
    | none => .error (str "failed to parse coverage threshold in pass condition")

/-- The capture start chosen by the greedy `[^0-9]{0,20}` before `\d+`: the
largest `j ≤ m` at which a Unicode decimal digit stands in `rest` (the engine
first consumes the maximal admissible run of non-`0-9` characters, then backs
off one character at a time until `\d` matches; a backed-off character is a
non-ASCII character, which may itself be a Unicode digit). -/
def bestNdIdx (rest : Str) : Nat → Option Nat
  | 0 =>
    match rest.head? with
    | some c => if isNdDigit c then some 0 else none
    | none => none
  | j + 1 =>
    match (rest.drop (j + 1)).head? with
    | some c => if isNdDigit c then some (j + 1) else bestNdIdx rest j
    | none => bestNdIdx rest j

/-- Match of `(?:coverage|覆盖率)[^0-9]{0,20}(\d+(?:\.\d+)?)\s*%?` anchored at
the start of `s`: the raw capture (split at the decimal point) and the
remainder after the whole match (for the non-overlapping scan of
`captures_iter`).  `[^0-9]` excludes only the ASCII digits while `\d` is any
Unicode decimal digit, so after the maximal non-`0-9` run (capped at 20) the
engine backtracks to the last position within it holding a Unicode digit; once
`\d+` matches, the optional fraction and the trailing `\s*%?` never fail. -/
def covValAt (s : Str) : Option ((Str × Str) × Str) :=
  let afterKey :=
    match stripPrefixCI (str "coverage") s with
    | some rest => some rest
    | none => stripPrefixCI (str "覆盖率") s
  match afterKey with
  | none => none
  | some rest =>
    let run := rest.takeWhile (fun c => !c.isDigit)
    match bestNdIdx rest (min 20 run.length) with
    | none => none
    | some j =>
      let r1 := rest.drop j
      let ip := r1.takeWhile isNdDigit
      let r2 := r1.drop ip.length
      let fp :=
        if r2.head? = some '.' then
          let f := (r2.drop 1).takeWhile isNdDigit
          if f.isEmpty then [] else f
        else []
      let r3 := if fp.isEmpty then r2 else (r2.drop 1).drop fp.length
      let r4 := dropWs r3
      let r5 := if r4.head? = some '%' then r4.drop 1 else r4
      some ((ip, fp), r5)

/-- Leftmost match of the coverage-value regex over a suffix of the output. -/
def findCovVal : Str → Option ((Str × Str) × Str)
  | [] => none
  | c :: rest =>
    match covValAt (c :: rest) with
    | some hit => some hit
    | none => findCovVal rest

/-- All coverage-value captures found by the non-overlapping scan of
`captures_iter`, in order.  Every match consumes at least the key, so the
remainder shrinks and `fuel = length + 1` never runs out. -/
def covMatchesGo : Nat → Str → List (Str × Str)
  | 0, _ => []
  | fuel + 1, s =>
    match findCovVal s with
    | none => []
    | some (capture, cont) => capture :: covMatchesGo fuel cont

/-- `extract_coverage_value` from `src/loop_engine/pass_condition.rs`: the
capture of the *last* match, parsed as `f64` with `.ok()` — `none` when there
is no match at all or when that final capture fails the parse (non-ASCII
digits), even if earlier captures would have parsed. -/
def extract_coverage_value (output : Str) : Option F64 :=
  match (covMatchesGo (output.length + 1) output).getLast? with
  | some (ip, fp) => parseF64 ip fp
  | none => none

/-- `is_clippy_warning_rule` from `src/loop_engine/pass_condition.rs`. -/
def is_clippy_warning_rule (condition : Str) : Bool :=
  let lower := condition.map Char.toLower
  isSubstring (str "无 clippy 警告") lower || isSubstring (str "no clippy warning") lower

/-- Quote characters recognised by the contains-rule regex class. -/
def isQuoteChar (c : Char) : Bool := c.toNat = 39 || c.toNat = 34 || c.toNat = 96

/-- Match of `(?:包含|contains)\s*['"`]?(.+?)['"`]?$` anchored at the start of
`s` (the `$` is end-of-haystack; `.` excludes newlines).  The lazy capture and
the optional quotes resolve to: capture everything after the greedy
whitespace run and an optional opening quote, minus an optional closing
quote, provided that region is non-empty and newline-free; when only
whitespace follows the keyword, backtracking into `\s*` leaves a
single-character whitespace capture (unless that character is a newline). -/
def containsCapAt (s : Str) : Option Str :=
  let afterKey :=
    match stripPrefixCI (str "包含") s with
    | some rest => some rest
    | none => stripPrefixCI (str "contains") s
  match afterKey with
  | none => none
  | some rest =>
    let s1 := dropWs rest
    if s1.isEmpty then
      match rest.getLast? with
      | some c => if c = '\n' then none else some [c]
      | none => none
    else if s1.contains '\n' then none
    else
      let s2 := if isQuoteChar (s1.headD ' ') then s1.drop 1 else s1
      let s3 := if s2.isEmpty then s1 else s2
      if s3.length ≥ 2 && isQuoteChar (s3.getLastD ' ') then some s3.dropLast
      else some s3

/-- Leftmost match of the contains-rule regex over the condition text. -/
def findContainsCap : Str → Option Str
  | [] => none
  | c :: rest =>
    match containsCapAt (c :: rest) with
    | some cap => some cap
    | none => findContainsCap rest

/-- `parse_output_contains` from `src/loop_engine/pass_condition.rs`: the
capture, trimmed, filtered to non-empty. -/
def parse_output_contains (condition : Str) : Option Str :=
  match (findContainsCap condition).map trimChars with
  | some needle => if needle.isEmpty then none else some needle
  | none => none

/-- `ConditionEvaluation` from `src/loop_engine/pass_condition.rs`.  The
`reason` strings below are abbreviated renderings of the source's formatted
diagnostics (the source interpolates numbers and quotes); only `passed` and
the error-versus-ok outcome feed back into the engine. -/
structure ConditionEvaluation where
  passed : Bool
  reason : Str
deriving Repr, DecidableEq

/-- Combined output `format!` of stdout and stderr, newline-separated. -/
def mergedOutput (r : CommandResult) : Str := r.stdout ++ '\n' :: r.stderr

/-- `evaluate_pass_condition` from `src/loop_engine/pass_condition.rs`: the
ordered rule list (empty, exit code, coverage, clippy, contains, fallback),
with the exit-code and coverage-threshold parse errors propagated to the
caller via `?`. -/
def evaluate_pass_condition (condition : Str) (result : CommandResult) :
    Except Str ConditionEvaluation :=
  let normalized := trimChars condition
  if normalized.isEmpty then
    .ok ⟨result.success, str "default check"⟩
  else
    match parse_exit_code normalized with
    | .error e => .error e
    | .ok (some expected) =>
      .ok ⟨decide (result.exit_code = expected) && !result.timed_out,
        str "expect exit code " ++ intStr expected ++ str ", got " ++ intStr result.exit_code⟩
    | .ok none =>
      match parse_coverage_threshold normalized with
      | .error e => .error e
      | .ok (some required) =>
        let actual := extract_coverage_value (mergedOutput result)
        .ok ⟨(match actual with
              | some value => f64Ge (f64Add value f64Epsilon) required
              | none => false),
          (match actual with
           | some _ => str "expect coverage, found value"
           | none => str "expect coverage, no coverage found")⟩
      | .ok none =>
        if is_clippy_warning_rule normalized then
          let merged := (mergedOutput result).map Char.toLower
          .ok ⟨decide (result.exit_code = 0) && !isSubstring (str "warning:") merged,
            str "expect no clippy warnings"⟩
        else
          match parse_output_contains normalized with
          | some needle =>
            .ok ⟨isSubstring needle (mergedOutput result),
              str "expect output contains " ++ needle⟩
          | none => .ok ⟨result.success, str "fallback check"⟩

/-!  Command extraction from the model reply (`src/core/process.rs`).

`extract_commands_from_output` parses fenced code blocks with pulldown-cmark,
then scans the whole text with the `(?m)` regexes for `CMD:` and `$`-prompt
captures.  The `(?m)` regexes are modelled as scanners over the whole text:
`^` anchors each attempt at a line start, but the interior `\s*` / `\s+` runs
match newlines too, so a match may span lines, and the non-overlapping
consumption of `captures_iter` is threaded through.  The fenced blocks come
from pulldown-cmark, an external markdown library: the general theorems below
take its block list as a parameter (like the other external oracles in this
file), and `blocksGo` is the concrete event stream for replies whose fences
sit at the top level of the document (no blockquote/list nesting and no raw
HTML blocks), as in every concrete input evaluated here. -/

/-- Characters of the ANSI-escape regex class `[0-9;?]`. -/
def isAnsiParamChar (c : Char) : Bool := c.isDigit || c = ';' || c = '?'

/-- Characters of the ANSI-escape regex class of bytes 0x20 to 0x2F. -/
def isAnsiInterChar (c : Char) : Bool := 32 ≤ c.toNat && c.toNat ≤ 47

/-- Characters of the ANSI-escape regex class `[@-~]`. -/
def isAnsiFinalChar (c : Char) : Bool := 64 ≤ c.toNat && c.toNat ≤ 126

/-- `replace_all` of the ANSI-escape regex (ESC, bracket, parameter bytes,
intermediate bytes, one final byte): all character classes involved are
pairwise disjoint, so the greedy runs are the unique maximal ones and a failed
start position falls through one character.  Every step consumes at least one
character, so `fuel = length` never runs out. -/
def stripAnsiGo : Nat → Str → Str
  | 0, l => l
  | _ + 1, [] => []
  | fuel + 1, c :: rest =>
    if c.toNat = 27 then
      match rest with
      | b :: r2 =>
        if b = '[' then
          match (r2.dropWhile isAnsiParamChar).dropWhile isAnsiInterChar with
          | d :: r5 =>
            if isAnsiFinalChar d then stripAnsiGo fuel r5
            else c :: stripAnsiGo fuel (b :: r2)
          | [] => c :: stripAnsiGo fuel (b :: r2)
        else c :: stripAnsiGo fuel (b :: r2)
      | [] => [c]
    else c :: stripAnsiGo fuel rest

/-- ANSI-escape stripping over the whole text. -/
def stripAnsi (l : Str) : Str := stripAnsiGo l.length l

/-- `normalize_model_output` from `src/core/process.rs`: strip ANSI escapes,
then delete every carriage return. -/
def normalize_model_output (output : Str) : Str :=
  (stripAnsi output).filter (fun c => c ≠ '\r')

/-- Split at newlines, keeping empty segments (the line structure seen by the
`(?m)` anchors). -/
def splitNl (l : Str) : List Str := l.splitOnP (fun c => c = '\n')

/-- The suffix starting right after the next newline (empty when no newline
remains): the next position where the `(?m)` anchor `^` can hold. -/
def nextLineStart (s : Str) : Str := (s.dropWhile (fun c => c ≠ '\n')).drop 1

/-- One attempt of `(?m)^\s*CMD\s*:\s*(.+?)\s*$` at a line-start suffix `s`
(case-sensitive `CMD`): the capture and the remainder from the end of the
captured text.  Every `\s` run may span newlines, so `CMD:` on one line can
capture content from a later line.  After the greedy `\s*` following the
colon the head is non-whitespace, so the lazy capture is the current line
remainder less its trailing whitespace — never empty.  When only whitespace
remains (`s5 = []`, necessarily at end of input), the engine either fails or
backtracks into `\s*` to capture a single whitespace character, which the
caller trims to the empty string and filters out; as nothing follows the end
of input, returning no capture is equivalent. -/
def tryCmdAt (s : Str) : Option (Str × Str) :=
  let s1 := dropWs s
  if hasPrefixSeq (str "CMD") s1 then
    match dropWs (s1.drop 3) with
    | c :: r =>
      if c = ':' then
        match dropWs r with
        | [] => none
        | s5 =>
          let line := s5.takeWhile (fun d => d ≠ '\n')
          some (trimChars line, s5.drop line.length)
      else none
    | [] => none
  else none

/-- One attempt of `(?m)^\s*\$\s+(.+?)\s*$` at a line-start suffix `s`: the
dollar sign must be followed by at least one whitespace character (possibly a
newline, so `$` alone on a line captures the next non-blank line); the same
end-of-input whitespace analysis as for `tryCmdAt` applies. -/
def tryPromptAt (s : Str) : Option (Str × Str) :=
  match dropWs s with
  | c :: r =>
    if c = '$' then
      match r.head? with
      | some w =>
        if rustIsWhitespace w then
          match dropWs r with
          | [] => none
          | s5 =>
            let line := s5.takeWhile (fun d => d ≠ '\n')
            some (trimChars line, s5.drop line.length)
        else none
      | none => none
    else none
  | [] => none

/-- `captures_iter` of the `CMD:` regex over the whole text: attempts anchor
at line starts; a successful match consumes through the end of the matched
line, so scanning resumes at the following line start.  (The real match end
extends through any whitespace-only lines that follow; as a leading `^\s*`
reaches the same first non-whitespace position from any line start inside
that run, the capture sequence is unchanged.)  Each step drops at least one
character, so `fuel = length + 1` never runs out. -/
def cmdScanGo : Nat → Str → List Str
  | 0, _ => []
  | _ + 1, [] => []
  | fuel + 1, s =>
    match tryCmdAt s with
    | some (capture, rest) => capture :: cmdScanGo fuel (nextLineStart rest)
    | none => cmdScanGo fuel (nextLineStart s)

/-- `captures_iter` of the `$`-prompt regex over the whole text (same scan
structure as `cmdScanGo`). -/
def promptScanGo : Nat → Str → List Str
  | 0, _ => []
  | _ + 1, [] => []
  | fuel + 1, s =>
    match tryPromptAt s with
    | some (capture, rest) => capture :: promptScanGo fuel (nextLineStart rest)
    | none => promptScanGo fuel (nextLineStart s)

/-- `is_shell_language` from `src/core/process.rs`. -/
def is_shell_language (info : Str) : Bool :=
  let low := (trimChars info).map Char.toLower
  low = str "bash" || low = str "sh" || low = str "shell" || low = str "zsh"

/-- Recognise a CommonMark opening code fence: up to three spaces of
indentation, a run of at least three backticks or tildes, the info string
after it (backtick fences reject backticks in the info string). -/
def fenceOpen (line : Str) : Option (Char × Nat × Nat × Str) :=
  let ind := (line.takeWhile (fun c => c = ' ')).length
  if ind ≤ 3 then
    let s := line.drop ind
    match s.head? with
    | some c =>
      if c.toNat = 96 || c = '~' then
        let run := s.takeWhile (fun d => d = c)
        if run.length ≥ 3 then
          let info := trimChars (s.drop run.length)
          if c.toNat = 96 && info.any (fun d => d.toNat = 96) then none
          else some (c, run.length, ind, info)
        else none
      else none
    | none => none
  else none

/-- Recognise a CommonMark closing fence for an open fence of character `fc`
and length `n`: same character, at least as long, only whitespace after. -/
def fenceCloses (line : Str) (fc : Char) (n : Nat) : Bool :=
  let ind := (line.takeWhile (fun c => c = ' ')).length
  ind ≤ 3 &&
    (let s := line.drop ind
     let run := s.takeWhile (fun d => d = fc)
     decide (run.length ≥ n) && (s.drop run.length).all rustIsWhitespace)

/-- Strip up to `k` leading spaces (the opening fence's indentation) from a
content line, as CommonMark prescribes. -/
def stripIndentUpTo : Nat → Str → Str
  | 0, l => l
  | k + 1, l =>
    match l with
    | c :: rest => if c = ' ' then stripIndentUpTo k rest else l
    | [] => []

/-- `shell_block_to_command` from `src/core/process.rs`: `none` for empty or
comment-only blocks, otherwise the trimmed block with every line right-trimmed
and rejoined — one multi-line command. -/
def shell_block_to_command (content : Str) : Option Str :=
  let trimmed := trimChars content
  if trimmed.isEmpty then none
  else
    let ls := splitNl trimmed
    if ls.any (fun line =>
        let t := trimChars line
        !t.isEmpty && !(t.head? = some '#')) then
      some (List.intercalate ['\n'] (ls.map trimEndChars))
    else none

/-- `is_comment_only_command` from `src/core/process.rs`. -/
def is_comment_only_command (command : Str) : Bool :=
  let t := trimChars command
  if t.isEmpty then true
  else
    !(splitNl t).any (fun line =>
      let l := trimChars line
      !l.isEmpty && !(l.head? = some '#'))

/-- State of an open fence while scanning: fence character, run length,
indentation, whether the info string named a shell language, and the content
lines collected so far (reversed). -/
structure FenceState where
  fc : Char
  len : Nat
  indent : Nat
  shell : Bool
  content : List Str

/-- Close a fence: emit the block as one command if its language was a shell
language and the block survives `shell_block_to_command`.  Content lines each
carry their newline, as in the pulldown-cmark text events. -/
def emitBlock (st : FenceState) (acc : List Str) : List Str :=
  if st.shell then
    match shell_block_to_command (st.content.reverse.foldr (fun l a => l ++ '\n' :: a) []) with
    | some cmd => cmd :: acc
    | none => acc
  else acc

/-- Line scanner collecting the shell fenced-block commands in order (an open
fence at end of input is emitted, as pulldown-cmark closes it at the end).
This is the pulldown-cmark event stream for documents whose fences sit at the
top level — fences nested in blockquotes or list items, and fence-shaped lines
inside raw HTML blocks, are outside its scope, which is why the general
theorems below take the block list as a parameter instead. -/
def blocksGo : List Str → Option FenceState → List Str → List Str
  | [], none, acc => acc.reverse
  | [], some st, acc => (emitBlock st acc).reverse
  | line :: rest, none, acc =>
    match fenceOpen line with
    | some (c, n, ind, info) => blocksGo rest (some ⟨c, n, ind, is_shell_language info, []⟩) acc
    | none => blocksGo rest none acc
  | line :: rest, some st, acc =>
    if fenceCloses line st.fc st.len then blocksGo rest none (emitBlock st acc)
    else blocksGo rest (some { st with content := stripIndentUpTo st.indent line :: st.content }) acc

/-- Helper for `Vec::dedup`: `kept` is the element currently retained; equal
successors are dropped, a different successor is emitted after it and becomes
the retained element. -/
def rustDedupGo {α : Type} [DecidableEq α] (kept : α) : List α → List α
  | [] => [kept]
  | b :: rest => if kept = b then rustDedupGo kept rest else kept :: rustDedupGo b rest

/-- `Vec::dedup`: remove consecutive repeated elements, keeping the first of
each run. -/
def rust_dedup {α : Type} [DecidableEq α] : List α → List α
  | [] => []
  | a :: rest => rustDedupGo a rest

/-- The candidate list `extract_commands_from_output` builds before `dedup`,
with the fenced-block commands pulldown-cmark yields passed in as `blocks`:
blocks, then `CMD:` captures, then `$`-prompt captures, with empty and
comment-only entries retained out. -/
def collected_commands_with (blocks : List Str) (output : Str) : List Str :=
  let normalized := normalize_model_output output
  let cmds := cmdScanGo (normalized.length + 1) normalized
  let prompts := promptScanGo (normalized.length + 1) normalized
  ((blocks ++ cmds ++ prompts).filter (fun c => !c.isEmpty)).filter
    (fun c => !is_comment_only_command c)

/-- The candidate list with the blocks of the top-level fence scanner. -/
def collected_commands (output : Str) : List Str :=
  collected_commands_with (blocksGo (splitNl (normalize_model_output output)) none []) output

/-- `extract_commands_from_output` with the block list as a parameter. -/
def extract_commands_with (blocks : List Str) (output : Str) : List Str :=
  rust_dedup (collected_commands_with blocks output)

/-- `extract_commands_from_output` from `src/core/process.rs` (the regex
compilations cannot fail, so the `Result` wrapper is dropped). -/
def extract_commands_from_output (output : Str) : List Str :=
  rust_dedup (collected_commands output)

/-- The number of positions of `l` holding `x` whose predecessor (initially
`prev`) differs — the runs of adjacent equal elements that start with `x`.
This is the specification yardstick for `Vec::dedup`: each such run
contributes exactly one retained element, so equal elements separated by a
different element are all retained. -/
def runStartCount {α : Type} [DecidableEq α] (x : α) : List α → Option α → Nat
  | [], _ => 0
  | a :: rest, prev =>
    (if a = x ∧ prev ≠ some a then 1 else 0) + runStartCount x rest (some a)

/-- Number of occurrences of `x` in a list. -/
def countOcc {α : Type} [DecidableEq α] (x : α) : List α → Nat
  | [] => 0
  | a :: rest => (if a = x then 1 else 0) + countOcc x rest

/-!  Engine state (`src/loop_engine/state.rs`).  The `BTreeMap` of requirement
ids is modelled as an association list with unique keys; `get_mut` becomes a
pointwise map that rewrites the matching entry and touches nothing else. -/

/-- `ReqStatus` from `src/loop_engine/state.rs`. -/
inductive ReqStatus where
  | Todo
  | InProgress
  | Done
  | Blocked
  | Failed
deriving Repr, DecidableEq

/-- `ReqEvidence` from `src/loop_engine/state.rs`. -/
structure ReqEvidence where
  command : Str
  exit_code : Int
  output_summary : Str
deriving Repr, DecidableEq

/-- `ReqRecord` from `src/loop_engine/state.rs`. -/
structure ReqRecord where
  status : ReqStatus
  attempts : Nat
  evidence : Option ReqEvidence
  last_error : Option Str
deriving Repr, DecidableEq

/-- `ReqRecord::default`. -/
def ReqRecord.default : ReqRecord := ⟨.Todo, 0, none, none⟩

/-- `EngineState` from `src/loop_engine/state.rs`. -/
structure EngineState where
  iteration : Nat
  req_status : List (Str × ReqRecord)
deriving Repr, DecidableEq

/-- Key lookup in the record map. -/
def containsKey (m : List (Str × ReqRecord)) (id : Str) : Bool :=
  m.any (fun p => p.1 = id)

/-- `BTreeMap::insert` (replace an existing key, append a fresh one). -/
def insertRecord (m : List (Str × ReqRecord)) (id : Str) (r : ReqRecord) :
    List (Str × ReqRecord) :=
  if containsKey m id then m.map (fun p => if p.1 = id then (p.1, r) else p)
  else m ++ [(id, r)]

/-- `EngineState::new`: every requirement id seeded with the default record,
iteration 0. -/
def EngineState.new (reqIds : List Str) : EngineState :=
  ⟨0, reqIds.foldl (fun m id => insertRecord m id ReqRecord.default) []⟩

/-- `EngineState::all_done`. -/
def EngineState.all_done (s : EngineState) : Bool :=
  s.req_status.all (fun p => p.2.status = ReqStatus.Done)

/-- `EngineState::mark_in_progress`: sets the status of an existing record,
silently does nothing for an unknown id. -/
def EngineState.mark_in_progress (s : EngineState) (req_id : Str) : EngineState :=
  { s with req_status :=
      s.req_status.map (fun p =>
        if p.1 = req_id then (p.1, { p.2 with status := ReqStatus.InProgress }) else p) }

/-- `EngineState::update`: rewrites all four payload fields of an existing
record, incrementing attempts with `saturating_add`; unknown ids are a
silent no-op. -/
def EngineState.update (s : EngineState) (req_id : Str) (status : ReqStatus)
    (evidence : Option ReqEvidence) (error : Option Str) (attempt_increment : Nat) :
    EngineState :=
  { s with req_status :=
      s.req_status.map (fun p =>
        if p.1 = req_id then
          (p.1, ⟨status, sat32 (p.2.attempts + attempt_increment), evidence, error⟩)
        else p) }

/-- The mutating `EngineState` operations, for stating map-key invariance over
arbitrary operation sequences. -/
inductive EngineOp where
  | mark (id : Str)
  | upd (id : Str) (status : ReqStatus) (evidence : Option ReqEvidence)
      (error : Option Str) (inc : Nat)

/-- Apply one mutating operation. -/
def applyOp (s : EngineState) : EngineOp → EngineState
  | .mark id => s.mark_in_progress id
  | .upd id status evidence error inc => s.update id status evidence error inc

/-- Apply a sequence of mutating operations. -/
def applyOps (s : EngineState) (ops : List EngineOp) : EngineState :=
  ops.foldl applyOp s

/-!  Driver (`src/plugin/prd_runner/loop_engine/driver.rs`).

`EngineRuntime::run` is embedded as a fuel-indexed transition function over an
environment of oracles: the interruption flag, the convergence guard, the
provider outcome and the requirement evaluation per (iteration, requirement),
the acceptance-check failures per iteration, and report/checkpoint
persistence failures.  Logging is dropped; everything that feeds the returned
`RunSummary` or the engine state is kept.  `none` is fuel exhaustion (the
loop has no completion exit of its own), `Except.error` a propagated
persistence failure. -/

/-- `RunSummary` from the driver; `last_checkpoint` holds the iteration of
the last saved checkpoint. -/
structure RunSummary where
  completed : Bool
  iterations : Nat
  stop_reason : Option Str
  last_checkpoint : Option Nat
deriving Repr, DecidableEq

/-- `is_run_completed` from the driver: all records Done and the most recent
acceptance pass clean. -/
def is_run_completed (s : EngineState) (acceptance_passed : Bool) : Bool :=
  s.all_done && acceptance_passed

/-- Outcome of one provider call, as the driver classifies it:
`ok` an instruction, `errNonFatal` a provider error the run survives (a
placeholder instruction is synthesized), `errFatal` an error whose text
`fatal_provider_stop_reason` recognises, with the stop reason. -/
inductive ProvOutcome where
  | ok
  | errNonFatal
  | errFatal (reason : Str)

/-- Oracles feeding one engine run. -/
structure DriverEnv where
  interruptTop : Nat → Bool
  stopTop : Nat → Bool
  interruptReq : Nat → Nat → Bool
  remainingNanos : Nat → Nat → Nat
  provider : Nat → Nat → ProvOutcome
  evalStatus : Nat → Nat → ReqStatus
  evalEvidence : Nat → Nat → Option ReqEvidence
  evalError : Nat → Nat → Option Str
  evalAttemptInc : Nat → Nat → Nat
  acceptanceFailed : Nat → List Str
  persistFails : Nat → Bool

/-- The per-requirement loop of one iteration (driver lines 117-332):
interruption check, `mark_in_progress`, remaining-budget check, the
fair-share provider timeout, provider call with fatal-error classification,
command execution (state-irrelevant, elided), evaluation, `update`.  `inl`
is an early stop with the summary and the state at the stop. -/
def processReqs (env : DriverEnv) (provider_timeout : Nat) (reqCount : Nat)
    (acc : Bool) (lastCp : Option Nat) (it : Nat) :
    List Str → Nat → EngineState → Sum (RunSummary × EngineState) EngineState
  | [], _, s => .inr s
  | id :: rest, idx, s =>
    if env.interruptReq it idx then
      .inl (⟨is_run_completed s acc, s.iteration, some (str "received Ctrl+C"), lastCp⟩, s)
    else
      let s := s.mark_in_progress id
      if env.remainingNanos it idx = 0 then
        .inl (⟨is_run_completed s acc, s.iteration,
          some (str "reached max_runtime with 0s remaining"), lastCp⟩, s)
      else
        let timeout := effective_provider_timeout provider_timeout
          (env.remainingNanos it idx) reqCount idx
        match env.provider it idx with
        | .errFatal reason => .inl (⟨false, s.iteration, some reason, lastCp⟩, s)
        | _ =>
          let s := s.update id (env.evalStatus it idx) (env.evalEvidence it idx)
            (env.evalError it idx) (env.evalAttemptInc it idx)
          let _ := timeout
          processReqs env provider_timeout reqCount acc lastCp it rest (idx + 1) s

/-- The iteration loop of `EngineRuntime::run`: interruption and convergence
checks at the top, the iteration increment, the requirement pass, the
acceptance pass, report/checkpoint persistence, loop. -/
def runLoop (env : DriverEnv) (provider_timeout : Nat) (reqIds : List Str)
    (checkpoint_enabled : Bool) :
    Nat → EngineState → Bool → Option Nat →
    Option (Except Str (RunSummary × EngineState × Bool))
  | 0, _, _, _ => none
  | fuel + 1, s, acc, lastCp =>
    if env.interruptTop s.iteration then
      some (.ok (⟨is_run_completed s acc, s.iteration, some (str "received Ctrl+C"), lastCp⟩,
        s, acc))
    else if env.stopTop s.iteration then
      some (.ok (⟨is_run_completed s acc, s.iteration, some (str "reached max_runtime"), lastCp⟩,
        s, acc))
    else
      let s := { s with iteration := sat32 (s.iteration + 1) }
      let it := s.iteration
      match processReqs env provider_timeout reqIds.length acc lastCp it reqIds 0 s with
      | .inl (summary, s2) => some (.ok (summary, s2, acc))
      | .inr s2 =>
        let acc2 := (env.acceptanceFailed it).isEmpty
        if env.persistFails it then some (.error (str "persistence failure"))
        else
          runLoop env provider_timeout reqIds checkpoint_enabled fuel s2 acc2
            (if checkpoint_enabled then some it else lastCp)

/-- `EngineRuntime::run` entry: state from a resume checkpoint or
`EngineState::new`, acceptance flag initially false, no checkpoint yet. -/
def EngineRuntime.run (env : DriverEnv) (provider_timeout : Nat) (reqIds : List Str)
    (checkpoint_enabled : Bool) (fuel : Nat) (resume_state : Option EngineState) :
    Option (Except Str (RunSummary × EngineState × Bool)) :=
  runLoop env provider_timeout reqIds checkpoint_enabled fuel
    (resume_state.getD (EngineState.new reqIds)) false none

/-!  Checkpoint manager (`src/checkpoint/saver.rs`).

The filesystem state relevant to naming and retention is the set of immediate
subdirectory names under the checkpoint root, modelled as a `Finset Str`
ordered lexicographically (UTF-8 byte order on valid UTF-8 equals scalar
order, which is the `List Char` lexicographic order).  `save` picks a name
(suffixing once on collision), `create_dir_all` makes the name present (a
no-op when it already exists, in which case the existing directory's files
are overwritten), and `prune_old_checkpoints` sorts all entries by name and
removes the oldest beyond the retention count. -/

/-- Decimal digits of `n`, most significant first (empty for 0 handled by the
caller). -/
def natDigitsStr (n : Nat) : Str := (toString n).data

/-- Rust `format!` zero padding to width three: for `n ≤ 999` this is exactly
the three decimal digits of `n` (leading zeros written out); larger numbers
print unpadded. -/
def pad3 (n : Nat) : Str :=
  if n ≤ 999 then [Nat.digitChar (n / 100), Nat.digitChar (n / 10 % 10), Nat.digitChar (n % 10)]
  else natDigitsStr n

/-- The base checkpoint directory name, `checkpoint_<3-digit-iteration>`. -/
def checkpoint_name (iteration : Nat) : Str :=
  str "checkpoint_" ++ pad3 iteration

/-- The collision fallback name, `checkpoint_<iter>_dup`. -/
def checkpoint_dup_name (iteration : Nat) : Str :=
  checkpoint_name iteration ++ str "_dup"

/-- The directory name `CheckpointManager::save` writes into: the base name,
or the `_dup` name when the base already exists (the suffix is applied only
once). -/
def chooseName (dirs : Finset Str) (iteration : Nat) : Str :=
  if checkpoint_name iteration ∈ dirs then checkpoint_dup_name iteration
  else checkpoint_name iteration

/-- `CheckpointManager::prune_old_checkpoints`: when more than `max_keep`
subdirectories exist, sort the names and delete the first
`len - max_keep` of them. -/
def prune_old_checkpoints (max_keep : Nat) (dirs : Finset Str) : Finset Str :=
  if dirs.card ≤ max_keep then dirs
  else ((dirs.sort (fun a b => a ≤ b)).drop (dirs.card - max_keep)).toFinset

/-- `CheckpointManager::save` restricted to its effect on the set of
checkpoint directory names: create the chosen directory, then prune. -/
def CheckpointManager.save (max_keep : Nat) (dirs : Finset Str) (iteration : Nat) :
    Finset Str :=
  prune_old_checkpoints max_keep (insert (chooseName dirs iteration) dirs)

/-- `CheckpointManager::new` clamps the retention count to at least one. -/
def CheckpointManager.keepOf (max_keep : Nat) : Nat := max max_keep 1

/-- A sequence of saves, one per listed iteration number. -/
def saveSeq (max_keep : Nat) (dirs : Finset Str) (its : List Nat) : Finset Str :=
  its.foldl (fun d it => CheckpointManager.save max_keep d it) dirs

/-!  Theorems.  Shared helper lemmas come first, then one theorem per claim
with its witness or counterexample. -/

section Lemmas

/-- The retry loop makes at most as many attempts as it is allowed. -/
theorem runAttemptsCount_le (oracle : AttemptOracle) :
    ∀ n k, runAttemptsCount oracle k n ≤ n := by
  intro n
  induction n with
  | zero => intro k; simp [runAttemptsCount]
  | succ m ih =>
    intro k
    simp only [runAttemptsCount]
    rcases h : oracle k with e | r
    · simp [h]
    · by_cases hs : r.success = true
      · simp [h, hs]
      · simp [h, hs]
        have := ih (k + 1)
        omega

/-- The retry loop returns the first successful attempt's result. -/
theorem runAttemptsGo_first_success (oracle : AttemptOracle) :
    ∀ n k j r last, k ≤ j → j < k + n →
      oracle j = .ok r → r.success = true →
      (∀ m, k ≤ m → m < j → ∃ rm, oracle m = .ok rm ∧ rm.success = false) →
      runAttemptsGo oracle k n last = .ok r := by
  intro n
  induction n with
  | zero => intro k j r last h1 h2; omega
  | succ m ih =>
    intro k j r last h1 h2 hok hsuc hfail
    simp only [runAttemptsGo]
    rcases Nat.eq_or_lt_of_le h1 with heq | hlt
    · subst heq
      simp [hok, hsuc]
    · obtain ⟨rk, hrk, hrkf⟩ := hfail k le_rfl hlt
      simp only [hrk, hrkf, Bool.false_eq_true, if_false]
      exact ih (k + 1) j r (some rk) hlt (by omega) hok hsuc
        (fun m hm1 hm2 => hfail m (by omega) hm2)

/-- The attempt count stops at the first success. -/
theorem runAttemptsCount_first_success (oracle : AttemptOracle) :
    ∀ n k j r, k ≤ j → j < k + n →
      oracle j = .ok r → r.success = true →
      (∀ m, k ≤ m → m < j → ∃ rm, oracle m = .ok rm ∧ rm.success = false) →
      runAttemptsCount oracle k n = j + 1 - k := by
  intro n
  induction n with
  | zero => intro k j r h1 h2; omega
  | succ m ih =>
    intro k j r h1 h2 hok hsuc hfail
    simp only [runAttemptsCount]
    rcases Nat.eq_or_lt_of_le h1 with heq | hlt
    · subst heq
      simp [hok, hsuc]
    · obtain ⟨rk, hrk, hrkf⟩ := hfail k le_rfl hlt
      simp only [hrk, hrkf, Bool.false_eq_true, if_false]
      have := ih (k + 1) j r hlt (by omega) hok hsuc
        (fun m hm1 hm2 => hfail m (by omega) hm2)
      omega

/-- With only failures on offer, the retry loop returns the last attempt's
result. -/
theorem runAttemptsGo_all_fail (oracle : AttemptOracle) :
    ∀ n k last rN, 1 ≤ n →
      (∀ m, k ≤ m → m < k + n → ∃ rm, oracle m = .ok rm ∧ rm.success = false) →
      oracle (k + n - 1) = .ok rN →
      runAttemptsGo oracle k n last = .ok rN := by
  intro n
  induction n with
  | zero => intro k last rN h1; omega
  | succ m ih =>
    intro k last rN _ hfail hlast
    simp only [runAttemptsGo]
    obtain ⟨rk, hrk, hrkf⟩ := hfail k le_rfl (by omega)
    simp only [hrk, hrkf, Bool.false_eq_true, if_false]
    cases m with
    | zero =>
      have hkk : k + 1 - 1 = k := by omega
      rw [hkk] at hlast
      rw [hlast] at hrk
      cases hrk
      simp [runAttemptsGo]
    | succ m' =>
      exact ih (k + 1) (some rk) rN (by omega)
        (fun mm hm1 hm2 => hfail mm (by omega) (by omega))
        (by have hix : k + 1 + (m' + 1) - 1 = k + (m' + 1 + 1) - 1 := by omega
            rw [hix]; exact hlast)

end Lemmas

/-- C4: for a non-empty command passing the workspace guard,
`CommandExecutor::run` performs at most `max_retry + 1` attempts, returns the
first successful attempt's result as soon as a success is observed (making no
further attempts), otherwise returns the last attempt's result; in
particular, a command failing `N` times and then succeeding, with
`max_retry ≥ N`, yields that success, produced on the final attempt made. -/
theorem executor_retry_spec (oracle : AttemptOracle) (max_retry : Nat)
    (manifest_exists : Bool) (command : Str)
    (hcmd : (trimChars command).isEmpty = false)
    (hguard : cargo_command_requires_manifest command = false ∨ manifest_exists = true) :
    runAttemptsCount oracle 1 (sat32 (max_retry + 1)) ≤ max_retry + 1 ∧
    (∀ j r, 1 ≤ j → j ≤ sat32 (max_retry + 1) →
      oracle j = .ok r → r.success = true →
      (∀ k, 1 ≤ k → k < j → ∃ rk, oracle k = .ok rk ∧ rk.success = false) →
      CommandExecutor.run oracle max_retry manifest_exists command = .ok r ∧
      runAttemptsCount oracle 1 (sat32 (max_retry + 1)) = j) ∧
    (∀ rN,
      (∀ k, 1 ≤ k → k ≤ sat32 (max_retry + 1) →
        ∃ rk, oracle k = .ok rk ∧ rk.success = false) →
      oracle (sat32 (max_retry + 1)) = .ok rN →
      CommandExecutor.run oracle max_retry manifest_exists command = .ok rN) ∧
    (∀ N r, N ≤ max_retry → max_retry < u32Max →
      (∀ k, 1 ≤ k → k ≤ N → ∃ rk, oracle k = .ok rk ∧ rk.success = false) →
      oracle (N + 1) = .ok r → r.success = true →
      CommandExecutor.run oracle max_retry manifest_exists command = .ok r ∧
      runAttemptsCount oracle 1 (sat32 (max_retry + 1)) = N + 1) := by
  have hA1 : 1 ≤ sat32 (max_retry + 1) := by
    simp only [sat32, u32Max]
    omega
  have hrun : CommandExecutor.run oracle max_retry manifest_exists command =
      runAttemptsGo oracle 1 (sat32 (max_retry + 1)) none := by
    unfold CommandExecutor.run
    rw [hcmd]
    rcases hguard with hg | hg
    · simp [hg]
    · simp [hg]
  refine ⟨?_, ?_, ?_, ?_⟩
  · have h1 := runAttemptsCount_le oracle (sat32 (max_retry + 1)) 1
    have h2 : sat32 (max_retry + 1) ≤ max_retry + 1 := Nat.min_le_left _ _
    omega
  · intro j r h1 h2 hok hsuc hfail
    constructor
    · rw [hrun]
      exact runAttemptsGo_first_success oracle (sat32 (max_retry + 1)) 1 j r none h1
        (by omega) hok hsuc (fun m hm1 hm2 => hfail m hm1 hm2)
    · have := runAttemptsCount_first_success oracle (sat32 (max_retry + 1)) 1 j r h1
        (by omega) hok hsuc (fun m hm1 hm2 => hfail m hm1 hm2)
      omega
  · intro rN hfail hlast
    rw [hrun]
    exact runAttemptsGo_all_fail oracle (sat32 (max_retry + 1)) 1 none rN hA1
      (fun m hm1 hm2 => hfail m hm1 (by omega))
      (by have hix : 1 + sat32 (max_retry + 1) - 1 = sat32 (max_retry + 1) := by omega
          rw [hix]; exact hlast)
  · intro N r hN hmr hfail hok hsuc
    have hsat : sat32 (max_retry + 1) = max_retry + 1 := by
      simp only [sat32, u32Max] at *
      omega
    constructor
    · rw [hrun]
      exact runAttemptsGo_first_success oracle (sat32 (max_retry + 1)) 1 (N + 1) r none
        (by omega) (by omega) hok hsuc
        (fun m hm1 hm2 => hfail m hm1 (by omega))
    · have := runAttemptsCount_first_success oracle (sat32 (max_retry + 1)) 1 (N + 1) r
        (by omega) (by omega) hok hsuc
        (fun m hm1 hm2 => hfail m hm1 (by omega))
      omega

/-- Concrete oracle for the C4 witness: attempts 1 and 2 fail with exit code
1, attempt 3 onward succeeds. -/
def witOracleC4 : AttemptOracle := fun k =>
  .ok ⟨str "c", if k ≤ 2 then 1 else 0, [], [], 0, false, k⟩

/-- Witness for C4: two failures then a success with `max_retry = 3` returns
the successful third attempt and stops after three attempts. -/
theorem executor_retry_spec_witness :
    CommandExecutor.run witOracleC4 3 true (str "echo ok") =
      .ok ⟨str "c", 0, [], [], 0, false, 3⟩ ∧
    runAttemptsCount witOracleC4 1 (sat32 4) = 3 := by
  have h := (executor_retry_spec witOracleC4 3 true (str "echo ok") (by decide)
      (Or.inr rfl)).2.2.2 2 ⟨str "c", 0, [], [], 0, false, 3⟩
    (by decide) (by decide)
    (by intro k h1 h2
        refine ⟨⟨str "c", 1, [], [], 0, false, k⟩, ?_, rfl⟩
        unfold witOracleC4
        have hk : k ≤ 2 := h2
        simp [hk])
    rfl (by decide)
  exact h

/-- C5: at each requirement, the effective provider timeout is the minimum of
the configured provider timeout and the fair share, the remaining convergence
budget divided by the count of requirements not yet processed in this
iteration (current one included), floored at one second. -/
theorem fair_share_timeout_spec (provider_timeout max_runtime elapsed : Nat)
    (req_count req_idx : Nat) (h : req_idx < req_count) :
    effective_provider_timeout provider_timeout
        (ConvergenceGuard.remaining max_runtime elapsed) req_count req_idx =
      min provider_timeout
        (max ((max_runtime - elapsed) / (req_count - req_idx)) oneSecondNanos) := by
  unfold effective_provider_timeout ConvergenceGuard.remaining
  have hp : req_count - req_idx > 0 := by omega
  simp [hp]

/-- Witness for C5: 3 requirements, index 1, 90s of budget left, 60s provider
timeout: the fair share is 45s, the effective timeout 45s. -/
theorem fair_share_timeout_spec_witness :
    effective_provider_timeout 60000000000
        (ConvergenceGuard.remaining 100000000000 10000000000) 3 1 =
      min 60000000000
        (max ((100000000000 - 10000000000) / (3 - 1)) oneSecondNanos) :=
  fair_share_timeout_spec 60000000000 100000000000 10000000000 3 1 (by decide)

section Lemmas

/-- Byte length distributes over cons. -/
theorem byteLen_cons (c : Char) (l : Str) : byteLen (c :: l) = c.utf8Size + byteLen l := by
  simp [byteLen]

/-- A successful byte-slice is a take-prefix of exactly the requested byte
length. -/
theorem takeBytes_sound : ∀ (l : Str) (m : Nat) (p : Str),
    takeBytes l m = some p → ∃ n, p = l.take n ∧ byteLen p = m := by
  intro l
  induction l with
  | nil =>
    intro m p h
    cases m with
    | zero => simp [takeBytes] at h; exact ⟨0, by simp [h, byteLen]⟩
    | succ m => simp [takeBytes] at h
  | cons c t ih =>
    intro m p h
    cases m with
    | zero =>
      simp [takeBytes] at h
      exact ⟨0, by simp [h, byteLen]⟩
    | succ m =>
      simp only [takeBytes] at h
      by_cases hc : c.utf8Size ≤ m + 1
      · simp only [hc, if_true, Option.map_eq_some'] at h
        obtain ⟨q, hq, hpq⟩ := h
        obtain ⟨n, hn, hbl⟩ := ih _ q hq
        refine ⟨n + 1, ?_, ?_⟩
        · simp [← hpq, hn]
        · rw [← hpq, byteLen_cons, hbl]
          omega
      · simp [hc] at h

/-- A byte index realised by some take-prefix is sliceable. -/
theorem takeBytes_complete : ∀ (l : Str) (n m : Nat),
    byteLen (l.take n) = m → ∃ p, takeBytes l m = some p := by
  intro l
  induction l with
  | nil =>
    intro n m h
    simp [byteLen] at h
    exact ⟨[], by simp [← h, takeBytes]⟩
  | cons c t ih =>
    intro n m h
    cases n with
    | zero =>
      simp [byteLen] at h
      exact ⟨[], by simp [← h, takeBytes]⟩
    | succ n =>
      rw [List.take_succ_cons, byteLen_cons] at h
      have hpos := Char.utf8Size_pos c
      cases m with
      | zero => omega
      | succ m =>
        obtain ⟨q, hq⟩ := ih n (m + 1 - c.utf8Size) (by omega)
        refine ⟨c :: q, ?_⟩
        simp only [takeBytes]
        have hc : c.utf8Size ≤ m + 1 := by omega
        simp [hc, hq]

end Lemmas

/-- C10 (amended): `output_summary` returns the trimmed stdout and stderr
joined by a newline (the string `exit_code=N` when both are empty), truncated
to its first `max_chars` bytes plus an ellipsis when longer than `max_chars`
bytes — provided the truncation index lands on a character boundary.  When it
does not (a multi-byte character straddles `max_chars`), the byte slice
panics, modelled as `none`; the function is not total. -/
theorem output_summary_spec (r : CommandResult) (m : Nat) :
    (byteLen (summaryText r) ≤ m → output_summary r m = some (summaryText r)) ∧
    (m < byteLen (summaryText r) →
      ((∃ n, byteLen ((summaryText r).take n) = m) →
        ∃ p, output_summary r m = some (p ++ str "...") ∧
          (∃ n, p = (summaryText r).take n) ∧ byteLen p = m) ∧
      ((∀ n, byteLen ((summaryText r).take n) ≠ m) → output_summary r m = none)) := by
  constructor
  · intro h
    unfold output_summary
    have : ¬ byteLen (summaryText r) > m := by omega
    simp [this]
  · intro hgt
    constructor
    · rintro ⟨n, hn⟩
      obtain ⟨p, hp⟩ := takeBytes_complete (summaryText r) n m hn
      obtain ⟨n', hn', hbl⟩ := takeBytes_sound (summaryText r) m p hp
      refine ⟨p, ?_, ⟨n', hn'⟩, hbl⟩
      unfold output_summary
      simp [hgt, hp]
    · intro hno
      unfold output_summary
      rcases hp : takeBytes (summaryText r) m with _ | p
      · simp [hgt, hp]
      · obtain ⟨n, hn, hbl⟩ := takeBytes_sound (summaryText r) m p hp
        exact absurd (hn ▸ hbl) (hno n)

/-- The C10 counterexample input: stdout holding one two-byte character. -/
def cexResC10 : CommandResult := ⟨[], 0, str "é", [], 0, false, 1⟩

/-- Counterexample for C10 as frozen: `output_summary` is not total — with a
two-byte character in stdout and `max_chars = 1`, the truncation index falls
inside the character and the Rust byte slice panics (`none` in the model). -/
theorem output_summary_cex : output_summary cexResC10 1 = none := by decide

/-- The C10 witness input: plain ASCII stdout. -/
def witResC10 : CommandResult := ⟨[], 0, str "ab", [], 0, false, 1⟩

/-- Witness for C10: an in-budget summary is returned untruncated. -/
theorem output_summary_spec_witness :
    output_summary witResC10 5 = some (summaryText witResC10) :=
  (output_summary_spec witResC10 5).1 (by decide)

/-- C2 (amended): `evaluate_pass_condition` returns an error precisely when
the exit-code pattern matches with a capture that fails the `i32` parse (out
of range, or holding a non-ASCII Unicode digit), or — with no exit-code
match — the coverage-threshold pattern matches with a capture that fails the
`f64` parse (non-ASCII digits); every condition matching none of the
recognised rules degrades to the fallback rule, which passes iff the result
succeeded.  (As frozen the claim said no error is ever returned; the
out-of-range exit-code capture refutes that.) -/
theorem evaluate_pass_condition_total_spec (condition : Str) (r : CommandResult) :
    ((∃ e, evaluate_pass_condition condition r = .error e) ↔
      ((∃ cap, findExitCap (trimChars condition) = some cap ∧ parseI32 cap = none) ∨
       (findExitCap (trimChars condition) = none ∧
        ∃ ip fp, findCovThresh (trimChars condition) = some (ip, fp) ∧
          parseF64 ip fp = none))) ∧
    ((trimChars condition).isEmpty = false →
      findExitCap (trimChars condition) = none →
      findCovThresh (trimChars condition) = none →
      is_clippy_warning_rule (trimChars condition) = false →
      parse_output_contains (trimChars condition) = none →
      evaluate_pass_condition condition r = .ok ⟨r.success, str "fallback check"⟩) := by
  by_cases hempty : (trimChars condition).isEmpty
  · have htrim : trimChars condition = [] := by
      rcases h : trimChars condition with _ | _
      · rfl
      · rw [h] at hempty; simp at hempty
    constructor
    · simp [evaluate_pass_condition, hempty, htrim, findExitCap, findCovThresh]
    · intro hne
      rw [hempty] at hne
      cases hne
  · have hempty' : (trimChars condition).isEmpty = false := by
      simpa using hempty
    rcases hfind : findExitCap (trimChars condition) with _ | cap
    · rcases hct : findCovThresh (trimChars condition) with _ | ⟨ip, fp⟩
      · constructor
        · constructor
          · rintro ⟨e, he⟩
            exfalso
            revert he
            by_cases hcl : is_clippy_warning_rule (trimChars condition) <;>
              rcases hcon : parse_output_contains (trimChars condition) with _ | needle <;>
              simp [evaluate_pass_condition, hempty', parse_exit_code,
                parse_coverage_threshold, hfind, hct, hcl, hcon]
          · rintro (⟨cap, hc, -⟩ | ⟨-, ip, fp, hc, -⟩)
            · cases hc
            · cases hc
        · intro _ _ _ hcl hcon
          simp [evaluate_pass_condition, hempty', parse_exit_code,
            parse_coverage_threshold, hfind, hct, hcl, hcon]
      · rcases hpf : parseF64 ip fp with _ | v
        · constructor
          · constructor
            · intro _
              exact Or.inr ⟨rfl, ip, fp, rfl, hpf⟩
            · intro _
              exact ⟨str "failed to parse coverage threshold in pass condition",
                by simp [evaluate_pass_condition, hempty', parse_exit_code,
                  parse_coverage_threshold, hfind, hct, hpf]⟩
          · intro _ _ hf
            cases hf
        · constructor
          · constructor
            · rintro ⟨e, he⟩
              revert he
              simp [evaluate_pass_condition, hempty', parse_exit_code,
                parse_coverage_threshold, hfind, hct, hpf]
            · rintro (⟨cap, hc, -⟩ | ⟨-, ip', fp', hc, hp⟩)
              · cases hc
              · cases hc
                rw [hpf] at hp
                cases hp
          · intro _ _ hf
            cases hf
    · rcases hparse : parseI32 cap with _ | v
      · constructor
        · constructor
          · intro _
            exact Or.inl ⟨cap, rfl, hparse⟩
          · rintro _
            exact ⟨str "failed to parse exit code in pass condition",
              by simp [evaluate_pass_condition, hempty', parse_exit_code, hfind, hparse]⟩
        · intro _ hf
          cases hf
      · constructor
        · constructor
          · rintro ⟨e, he⟩
            revert he
            simp [evaluate_pass_condition, hempty', parse_exit_code, hfind, hparse]
          · rintro (⟨cap', hc, hp⟩ | ⟨hf, -⟩)
            · cases hc
              rw [hparse] at hp
              cases hp
            · cases hf
        · intro _ hf
          cases hf

/-- Sample command result shared by the C2 theorems. -/
def sampleResC2 : CommandResult := ⟨str "c", 0, [], [], 0, false, 1⟩

/-- Counterexample for C2 as frozen: a condition matching the exit-code
pattern with a capture exceeding `i32::MAX` makes `evaluate_pass_condition`
return an error to the caller instead of degrading to the fallback rule. -/
theorem evaluate_pass_condition_total_cex :
    evaluate_pass_condition (str "exit code = 3000000000") sampleResC2 =
      .error (str "failed to parse exit code in pass condition") := by
  rfl

/-- Witness for C2: a condition matching no recognised rule falls back to the
success check. -/
theorem evaluate_pass_condition_total_spec_witness :
    evaluate_pass_condition (str "random nonsense") sampleResC2 =
      .ok ⟨sampleResC2.success, str "fallback check"⟩ :=
  (evaluate_pass_condition_total_spec (str "random nonsense") sampleResC2).2
    rfl rfl rfl rfl rfl

/-- C8 (amended): whenever the condition matches the coverage pattern with a
threshold capture that parses as `f64` and does not match the
(higher-precedence) exit-code pattern, the evaluation passes iff the last
coverage-shaped capture of the combined stdout+stderr parses as `f64` and
that value plus `f64::EPSILON` is at least the required threshold (IEEE
double arithmetic); a missing last match, or a last capture that fails the
parse, fails the rule.  (As frozen the claim omitted the precedence proviso;
a condition matching both patterns is decided by the exit-code rule, refuting
the unconditional reading.) -/
theorem coverage_rule_spec (condition : Str) (r : CommandResult) (required : F64)
    (hexit : findExitCap (trimChars condition) = none)
    (hcov : parse_coverage_threshold (trimChars condition) = .ok (some required)) :
    evaluate_pass_condition condition r =
      .ok ⟨(match extract_coverage_value (mergedOutput r) with
            | some value => f64Ge (f64Add value f64Epsilon) required
            | none => false),
        (match extract_coverage_value (mergedOutput r) with
         | some _ => str "expect coverage, found value"
         | none => str "expect coverage, no coverage found")⟩ := by
  have hne : (trimChars condition).isEmpty = false := by
    rcases h : trimChars condition with _ | ⟨c, t⟩
    · rw [h] at hcov
      simp [parse_coverage_threshold, findCovThresh] at hcov
    · simp
  rcases hav : extract_coverage_value (mergedOutput r) with _ | v <;>
    simp [evaluate_pass_condition, hne, parse_exit_code, hexit, hcov, hav]

/-- The C8 counterexample condition: it matches both the exit-code pattern
and the coverage pattern. -/
def cexCondC8 : Str := str "exit code: 1 coverage >= 80"

/-- The C8 counterexample result: exit code 1, no coverage value in the
output. -/
def cexResC8 : CommandResult := ⟨str "c", 1, [], [], 0, false, 1⟩

/-- Counterexample for C8 as frozen: the condition matches the coverage
pattern with a well-formed threshold and the output holds no coverage value,
so the claim requires a fail, yet the evaluation passes — the exit-code rule
matched first. -/
theorem coverage_rule_cex :
    (∃ required, parse_coverage_threshold (trimChars cexCondC8) = .ok (some required)) ∧
    extract_coverage_value (mergedOutput cexResC8) = none ∧
    evaluate_pass_condition cexCondC8 cexResC8 =
      .ok ⟨true, str "expect exit code 1, got 1"⟩ :=
  ⟨⟨_, rfl⟩, rfl, rfl⟩

/-- The C8 witness condition and result, from the spec's own example. -/
def witResC8 : CommandResult := ⟨str "c", 0, str "Test coverage: 83.5%", [], 0, false, 1⟩

/-- Witness for C8: `coverage >= 80` with output `Test coverage: 83.5%`
evaluates through the coverage rule, against the double the threshold capture
parses to. -/
theorem coverage_rule_spec_witness :
    evaluate_pass_condition (str "coverage >= 80") witResC8 =
      .ok ⟨(match extract_coverage_value (mergedOutput witResC8) with
            | some value =>
              f64Ge (f64Add value f64Epsilon) (roundF64 16 (qOfParts (str "80") []))
            | none => false),
        (match extract_coverage_value (mergedOutput witResC8) with
         | some _ => str "expect coverage, found value"
         | none => str "expect coverage, no coverage found")⟩ :=
  coverage_rule_spec (str "coverage >= 80") witResC8
    (roundF64 16 (qOfParts (str "80") [])) rfl rfl

section Lemmas

/-- The dedup helper's output is a sublist of the retained element followed
by the input. -/
theorem rustDedupGo_sublist {α : Type} [DecidableEq α] :
    ∀ (l : List α) (a : α), List.Sublist (rustDedupGo a l) (a :: l) := by
  intro l
  induction l with
  | nil => intro a; simp [rustDedupGo]
  | cons b rest ih =>
    intro a
    by_cases hab : a = b
    · subst hab
      simp only [rustDedupGo, if_pos rfl]
      exact (ih a).trans ((List.sublist_cons_self a rest).cons_cons a)
    · simp only [rustDedupGo, if_neg hab]
      exact (ih b).cons_cons a

/-- The dedup helper always emits the retained element first. -/
theorem rustDedupGo_head {α : Type} [DecidableEq α] :
    ∀ (l : List α) (a : α), (rustDedupGo a l).head? = some a := by
  intro l
  induction l with
  | nil => intro a; rfl
  | cons b rest ih =>
    intro a
    by_cases hab : a = b
    · subst hab
      simp only [rustDedupGo, if_pos rfl]
      exact ih a
    · simp [rustDedupGo, if_neg hab]

/-- The dedup helper's output has no two adjacent equal elements. -/
theorem rustDedupGo_chain {α : Type} [DecidableEq α] :
    ∀ (l : List α) (a : α), List.Chain' (fun x y => x ≠ y) (rustDedupGo a l) := by
  intro l
  induction l with
  | nil => intro a; simp [rustDedupGo]
  | cons b rest ih =>
    intro a
    by_cases hab : a = b
    · subst hab
      simp only [rustDedupGo, if_pos rfl]
      exact ih a
    · simp only [rustDedupGo, if_neg hab]
      rw [List.chain'_cons']
      refine ⟨?_, ih b⟩
      intro y hy
      rw [rustDedupGo_head rest b] at hy
      simp at hy
      subst hy
      exact hab

/-- `Vec::dedup` output is a sublist of its input. -/
theorem rust_dedup_sublist {α : Type} [DecidableEq α] :
    ∀ l : List α, List.Sublist (rust_dedup l) l := by
  intro l
  cases l with
  | nil => simp [rust_dedup]
  | cons a rest => exact rustDedupGo_sublist rest a

/-- `Vec::dedup` keeps the first element. -/
theorem rust_dedup_head {α : Type} [DecidableEq α] :
    ∀ l : List α, (rust_dedup l).head? = l.head? := by
  intro l
  cases l with
  | nil => rfl
  | cons a rest => simp [rust_dedup, rustDedupGo_head rest a]

/-- `Vec::dedup` output has no two adjacent equal elements. -/
theorem rust_dedup_chain {α : Type} [DecidableEq α] :
    ∀ l : List α, List.Chain' (fun x y => x ≠ y) (rust_dedup l) := by
  intro l
  cases l with
  | nil => simp [rust_dedup]
  | cons a rest => exact rustDedupGo_chain rest a

/-- Occurrence count of the dedup helper's output: one for the retained
element, plus one for every run of `l` starting with `x` whose predecessor is
tracked from `kept`. -/
theorem rustDedupGo_count {α : Type} [DecidableEq α] (x : α) :
    ∀ (l : List α) (kept : α),
      countOcc x (rustDedupGo kept l) =
        (if kept = x then 1 else 0) + runStartCount x l (some kept) := by
  intro l
  induction l with
  | nil =>
    intro kept
    simp [rustDedupGo, countOcc, runStartCount]
  | cons b rest ih =>
    intro kept
    by_cases hkb : kept = b
    · subst hkb
      rw [show rustDedupGo kept (kept :: rest) = rustDedupGo kept rest from by
        simp [rustDedupGo]]
      rw [ih kept, runStartCount]
      simp
    · rw [show rustDedupGo kept (b :: rest) = kept :: rustDedupGo b rest from by
        simp [rustDedupGo, hkb]]
      rw [show countOcc x (kept :: rustDedupGo b rest) =
        (if kept = x then 1 else 0) + countOcc x (rustDedupGo b rest) from rfl]
      rw [ih b, runStartCount]
      have hne : some kept ≠ some b := fun e => hkb (Option.some.inj e)
      have hcond : (b = x ∧ some kept ≠ some b) ↔ (b = x) := by simp [hne]
      simp only [hcond]

/-- `Vec::dedup` keeps exactly one element per run of adjacent equal
elements: the count of `x` in the output is the number of runs of `x` in the
input. -/
theorem rust_dedup_count {α : Type} [DecidableEq α] (x : α) (l : List α) :
    countOcc x (rust_dedup l) = runStartCount x l none := by
  cases l with
  | nil => rfl
  | cons a rest =>
    rw [show rust_dedup (a :: rest) = rustDedupGo a rest from rfl,
      rustDedupGo_count, runStartCount]
    have hcond : (a = x ∧ (none : Option α) ≠ some a) ↔ (a = x) := by simp
    simp only [hcond]

end Lemmas

/-- C3 (amended): for every fenced-block list the markdown parser yields and
every reply text, `extract_commands_from_output` returns the collected
candidates (fenced shell blocks, then `CMD:` captures, then `$`-prompt
captures) with order preserved and *consecutive* duplicates removed, keeping
the first of each adjacent run — `Vec::dedup` removes adjacent duplicates
only, so the count of each command in the result equals the number of its
adjacent runs among the candidates, and equal commands separated by a
different command both remain.  (As frozen the claim said no command string
appears twice.) -/
theorem extract_commands_dedup_spec :
    (∀ (blocks : List Str) (raw : Str),
      List.Chain' (fun a b => a ≠ b) (extract_commands_with blocks raw) ∧
      List.Sublist (extract_commands_with blocks raw) (collected_commands_with blocks raw) ∧
      (extract_commands_with blocks raw).head? = (collected_commands_with blocks raw).head? ∧
      (∀ x : Str, countOcc x (extract_commands_with blocks raw) =
        runStartCount x (collected_commands_with blocks raw) none)) ∧
    (∀ raw : Str,
      extract_commands_from_output raw =
        extract_commands_with (blocksGo (splitNl (normalize_model_output raw)) none []) raw) :=
  ⟨fun blocks raw =>
    ⟨rust_dedup_chain (collected_commands_with blocks raw),
      rust_dedup_sublist (collected_commands_with blocks raw),
      rust_dedup_head (collected_commands_with blocks raw),
      fun x => rust_dedup_count x (collected_commands_with blocks raw)⟩,
   fun _ => rfl⟩

/-- Counterexample for C3 as frozen: three `CMD:` lines `a`, `b`, `a` yield a
list in which `a` appears twice — the duplicate is not adjacent, so
`Vec::dedup` keeps it. -/
theorem extract_commands_dedup_cex :
    extract_commands_from_output (str "CMD: a\nCMD: b\nCMD: a") =
      [str "a", str "b", str "a"] ∧
    (extract_commands_from_output (str "CMD: a\nCMD: b\nCMD: a")).count (str "a") = 2 := by
  decide

section Lemmas

/-- A pointwise record rewrite keeps the key list unchanged. -/
theorem mapRecord_keys (m : List (Str × ReqRecord)) (id : Str)
    (f : Str × ReqRecord → ReqRecord) :
    ((m.map (fun p => if p.1 = id then (p.1, f p) else p)).map Prod.fst) =
      m.map Prod.fst := by
  rw [List.map_map]
  apply List.map_congr_left
  intro p _
  by_cases h : p.1 = id <;> simp [h]

/-- A pointwise record rewrite touching no present key is the identity. -/
theorem mapRecord_no_key (m : List (Str × ReqRecord)) (id : Str)
    (f : Str × ReqRecord → ReqRecord) (h : containsKey m id = false) :
    m.map (fun p => if p.1 = id then (p.1, f p) else p) = m := by
  have hall : ∀ p ∈ m, ¬(p.1 = id) := by
    intro p hp
    intro hpe
    have : containsKey m id = true := by
      unfold containsKey
      rw [List.any_eq_true]
      exact ⟨p, hp, by simp [hpe]⟩
    rw [h] at this
    cases this
  have hmap : m.map (fun p => if p.1 = id then (p.1, f p) else p) = m.map (fun p => p) := by
    apply List.map_congr_left
    intro p hp
    simp [hall p hp]
  simpa using hmap

/-- `mark_in_progress` keeps the key list unchanged. -/
theorem mark_keys (s : EngineState) (id : Str) :
    (s.mark_in_progress id).req_status.map Prod.fst = s.req_status.map Prod.fst :=
  mapRecord_keys _ _ _

/-- `update` keeps the key list unchanged. -/
theorem update_keys (s : EngineState) (id : Str) (status : ReqStatus)
    (ev : Option ReqEvidence) (er : Option Str) (inc : Nat) :
    (s.update id status ev er inc).req_status.map Prod.fst = s.req_status.map Prod.fst :=
  mapRecord_keys _ _ _

/-- Key presence is a function of the key list alone. -/
theorem containsKey_map_fst (m m' : List (Str × ReqRecord)) (id : Str)
    (h : m.map Prod.fst = m'.map Prod.fst) : containsKey m id = containsKey m' id := by
  unfold containsKey
  have h1 : ∀ mm : List (Str × ReqRecord),
      mm.any (fun p => p.1 = id) = (mm.map Prod.fst).any (fun k => k = id) := by
    intro mm
    induction mm with
    | nil => rfl
    | cons p t ih => simp [ih]
  rw [h1, h1, h]

end Lemmas

/-- C9: `EngineState.update` and `EngineState.mark_in_progress` with an id
absent from the record map leave the entire state unchanged, and no sequence
of mutating `EngineState` operations ever adds or removes an id: the key list
of the id-to-record mapping is invariant. -/
theorem engine_state_key_invariance :
    (∀ (s : EngineState) (id : Str) (status : ReqStatus) (ev : Option ReqEvidence)
        (er : Option Str) (inc : Nat),
      containsKey s.req_status id = false →
      s.update id status ev er inc = s ∧ s.mark_in_progress id = s) ∧
    (∀ (s : EngineState) (ops : List EngineOp),
      (applyOps s ops).req_status.map Prod.fst = s.req_status.map Prod.fst) := by
  constructor
  · intro s id status ev er inc h
    constructor
    · unfold EngineState.update
      rw [mapRecord_no_key s.req_status id _ h]
    · unfold EngineState.mark_in_progress
      rw [mapRecord_no_key s.req_status id _ h]
  · intro s ops
    induction ops generalizing s with
    | nil => rfl
    | cons op rest ih =>
      have hstep : (applyOp s op).req_status.map Prod.fst = s.req_status.map Prod.fst := by
        cases op with
        | mark id => exact mark_keys s id
        | upd id status ev er inc => exact update_keys s id status ev er inc
      calc (applyOps s (op :: rest)).req_status.map Prod.fst
          = (applyOps (applyOp s op) rest).req_status.map Prod.fst := rfl
        _ = (applyOp s op).req_status.map Prod.fst := ih (applyOp s op)
        _ = s.req_status.map Prod.fst := hstep

/-- Witness for C9: updating or marking an id that was never seeded leaves
the freshly created state untouched. -/
theorem engine_state_key_invariance_witness :
    (EngineState.new [str "R1"]).update (str "ZZ") ReqStatus.Done none none 1 =
      EngineState.new [str "R1"] ∧
    (EngineState.new [str "R1"]).mark_in_progress (str "ZZ") = EngineState.new [str "R1"] :=
  engine_state_key_invariance.1 (EngineState.new [str "R1"]) (str "ZZ")
    ReqStatus.Done none none 1 (by decide)

/-- C7 (amended): whenever the suffixed directory `checkpoint_<iter>_dup`
does not already exist, `save` picks a name not yet on disk — the base name,
or the `_dup` name when the base exists — so no existing checkpoint is
overwritten and the collision does not fail the save.  (As frozen the claim
promised a fresh name whenever the base exists; the suffix is applied only
once, so when base and `_dup` both exist the `_dup` directory is reused and
its contents overwritten.) -/
theorem checkpoint_unique_name_spec (dirs : Finset Str) (it : Nat)
    (h : checkpoint_dup_name it ∉ dirs) :
    chooseName dirs it ∉ dirs ∧
    (checkpoint_name it ∈ dirs → chooseName dirs it = checkpoint_dup_name it) ∧
    (checkpoint_name it ∉ dirs → chooseName dirs it = checkpoint_name it) := by
  unfold chooseName
  by_cases hb : checkpoint_name it ∈ dirs <;> simp [hb, h]

/-- Counterexample for C7 as frozen: with `checkpoint_001` and
`checkpoint_001_dup` both present, a save of iteration 1 picks the
already-existing `_dup` name, writing into (and overwriting) that
directory. -/
theorem checkpoint_unique_name_cex :
    chooseName {str "checkpoint_001", str "checkpoint_001_dup"} 1 =
      str "checkpoint_001_dup" ∧
    str "checkpoint_001_dup" ∈
      ({str "checkpoint_001", str "checkpoint_001_dup"} : Finset Str) := by
  constructor
  · decide
  · decide

/-- Witness for C7: with only the base name on disk, the `_dup` name is
chosen and is fresh. -/
theorem checkpoint_unique_name_spec_witness :
    chooseName {str "checkpoint_001"} 1 ∉ ({str "checkpoint_001"} : Finset Str) ∧
    (checkpoint_name 1 ∈ ({str "checkpoint_001"} : Finset Str) →
      chooseName {str "checkpoint_001"} 1 = checkpoint_dup_name 1) ∧
    (checkpoint_name 1 ∉ ({str "checkpoint_001"} : Finset Str) →
      chooseName {str "checkpoint_001"} 1 = checkpoint_name 1) :=
  checkpoint_unique_name_spec {str "checkpoint_001"} 1 (by decide)

section Lemmas

/-- Marking a present requirement id leaves the state with a record that is
`InProgress`, so `all_done` is false. -/
theorem all_done_mark_false (s : EngineState) (id : Str)
    (h : containsKey s.req_status id = true) :
    (s.mark_in_progress id).all_done = false := by
  unfold containsKey at h
  rw [List.any_eq_true] at h
  obtain ⟨p, hp, hpe⟩ := h
  simp only [decide_eq_true_eq] at hpe
  unfold EngineState.all_done EngineState.mark_in_progress
  simp only
  refine List.all_eq_false.mpr ⟨(p.1, { p.2 with status := .InProgress }), ?_, by simp⟩
  exact List.mem_map.mpr ⟨p, hp, by simp [hpe]⟩

/-- The requirement pass of one iteration: an early stop carries a summary
whose completed flag agrees with `is_run_completed` of the state at the stop
— fatal provider errors return a literal `false`, matched by the current
requirement's record being freshly `InProgress`. -/
theorem processReqs_inl_iff (env : DriverEnv) (pt rc : Nat) (acc : Bool)
    (lastCp : Option Nat) (it : Nat) :
    ∀ (ids : List Str) (idx : Nat) (s : EngineState),
      (∀ id ∈ ids, containsKey s.req_status id = true) →
      ∀ summary s2, processReqs env pt rc acc lastCp it ids idx s = .inl (summary, s2) →
      (summary.completed = true ↔ (s2.all_done = true ∧ acc = true)) := by
  intro ids
  induction ids with
  | nil =>
    intro idx s hcov summary s2 h
    simp [processReqs] at h
  | cons id rest ih =>
    intro idx s hcov summary s2 h
    have hid : containsKey s.req_status id = true := hcov id (by simp)
    simp only [processReqs] at h
    by_cases h1 : env.interruptReq it idx = true
    · rw [if_pos h1] at h
      simp only [Sum.inl.injEq, Prod.mk.injEq] at h
      obtain ⟨hsum, hs2⟩ := h
      subst hsum hs2
      simp [is_run_completed, Bool.and_eq_true]
    · rw [if_neg h1] at h
      by_cases h2 : env.remainingNanos it idx = 0
      · rw [if_pos h2] at h
        simp only [Sum.inl.injEq, Prod.mk.injEq] at h
        obtain ⟨hsum, hs2⟩ := h
        subst hsum hs2
        simp [is_run_completed, Bool.and_eq_true]
      · rw [if_neg h2] at h
        rcases hp : env.provider it idx with _ | _ | reason <;> simp only [hp] at h
        · exact ih (idx + 1) _ (by
            intro i hi
            rw [containsKey_map_fst _ s.req_status i]
            · exact hcov i (by simp [hi])
            · rw [update_keys, mark_keys]) summary s2 h
        · exact ih (idx + 1) _ (by
            intro i hi
            rw [containsKey_map_fst _ s.req_status i]
            · exact hcov i (by simp [hi])
            · rw [update_keys, mark_keys]) summary s2 h
        · simp only [Sum.inl.injEq, Prod.mk.injEq] at h
          obtain ⟨hsum, hs2⟩ := h
          subst hsum hs2
          have hmark := all_done_mark_false s id hid
          simp [hmark]

/-- The requirement pass keeps the key list of the record map unchanged. -/
theorem processReqs_inr_keys (env : DriverEnv) (pt rc : Nat) (acc : Bool)
    (lastCp : Option Nat) (it : Nat) :
    ∀ (ids : List Str) (idx : Nat) (s s2 : EngineState),
      processReqs env pt rc acc lastCp it ids idx s = .inr s2 →
      s2.req_status.map Prod.fst = s.req_status.map Prod.fst := by
  intro ids
  induction ids with
  | nil =>
    intro idx s s2 h
    simp only [processReqs, Sum.inr.injEq] at h
    rw [← h]
  | cons id rest ih =>
    intro idx s s2 h
    simp only [processReqs] at h
    by_cases h1 : env.interruptReq it idx = true
    · rw [if_pos h1] at h; cases h
    · rw [if_neg h1] at h
      by_cases h2 : env.remainingNanos it idx = 0
      · rw [if_pos h2] at h; cases h
      · rw [if_neg h2] at h
        rcases hp : env.provider it idx with _ | _ | reason <;> simp only [hp] at h
        · rw [ih (idx + 1) _ s2 h, update_keys, mark_keys]
        · rw [ih (idx + 1) _ s2 h, update_keys, mark_keys]
        · cases h

/-- The iteration loop: every produced summary's completed flag agrees with
`all_done` of the final state and the last acceptance flag. -/
theorem runLoop_completed_iff (env : DriverEnv) (pt : Nat) (reqIds : List Str)
    (ck : Bool) :
    ∀ (fuel : Nat) (s : EngineState) (acc : Bool) (lastCp : Option Nat),
      (∀ id ∈ reqIds, containsKey s.req_status id = true) →
      ∀ summary sF accF,
        runLoop env pt reqIds ck fuel s acc lastCp = some (.ok (summary, sF, accF)) →
        (summary.completed = true ↔ (sF.all_done = true ∧ accF = true)) := by
  intro fuel
  induction fuel with
  | zero =>
    intro s acc lastCp hcov summary sF accF h
    simp [runLoop] at h
  | succ n ih =>
    intro s acc lastCp hcov summary sF accF h
    simp only [runLoop] at h
    by_cases h1 : env.interruptTop s.iteration = true
    · rw [if_pos h1] at h
      simp only [Option.some.injEq, Except.ok.injEq, Prod.mk.injEq] at h
      obtain ⟨hsum, hsF, haccF⟩ := h
      subst hsum hsF haccF
      simp [is_run_completed, Bool.and_eq_true]
    · rw [if_neg h1] at h
      by_cases h2 : env.stopTop s.iteration = true
      · rw [if_pos h2] at h
        simp only [Option.some.injEq, Except.ok.injEq, Prod.mk.injEq] at h
        obtain ⟨hsum, hsF, haccF⟩ := h
        subst hsum hsF haccF
        simp [is_run_completed, Bool.and_eq_true]
      · rw [if_neg h2] at h
        rcases hpr : processReqs env pt reqIds.length acc lastCp
            (sat32 (s.iteration + 1))
            reqIds 0 { s with iteration := sat32 (s.iteration + 1) } with
          ⟨summary', s2⟩ | s2 <;>
          simp only [hpr] at h
        · simp only [Option.some.injEq, Except.ok.injEq, Prod.mk.injEq] at h
          obtain ⟨hsum, hsF, haccF⟩ := h
          subst hsum
          subst hsF
          subst haccF
          exact processReqs_inl_iff env pt reqIds.length _ lastCp _ reqIds 0
            { s with iteration := sat32 (s.iteration + 1) }
            (fun id hid => hcov id hid) _ _ hpr
        · by_cases h3 : env.persistFails (sat32 (s.iteration + 1)) = true
          · rw [if_pos h3] at h
            simp at h
          · rw [if_neg h3] at h
            refine ih s2 _ _ ?_ summary sF accF h
            intro id hid
            rw [containsKey_map_fst _ s.req_status id]
            · exact hcov id hid
            · exact processReqs_inr_keys env pt reqIds.length acc lastCp _ reqIds 0
                { s with iteration := sat32 (s.iteration + 1) } s2 hpr

end Lemmas

/-- C1: for every run of the engine loop that returns a summary (started from
a state covering every requirement id — `EngineState::new` guarantees this),
the summary's completed flag is true iff, at the moment the run stops, every
requirement record is Done and the most recent iteration's acceptance pass
had no failing criterion; before any acceptance pass the flag is false. -/
theorem run_summary_completed_spec (env : DriverEnv) (pt : Nat) (reqIds : List Str)
    (ck : Bool) (fuel : Nat) (resume_state : Option EngineState)
    (hcov : ∀ id ∈ reqIds,
      containsKey (resume_state.getD (EngineState.new reqIds)).req_status id = true)
    (summary : RunSummary) (sF : EngineState) (accF : Bool)
    (hrun : EngineRuntime.run env pt reqIds ck fuel resume_state =
      some (.ok (summary, sF, accF))) :
    summary.completed = true ↔ (sF.all_done = true ∧ accF = true) :=
  runLoop_completed_iff env pt reqIds ck fuel
    (resume_state.getD (EngineState.new reqIds)) false none hcov summary sF accF hrun

/-- Environment for the C1 witness: the convergence guard trips at once. -/
def witEnvC1 : DriverEnv where
  interruptTop := fun _ => false
  stopTop := fun _ => true
  interruptReq := fun _ _ => false
  remainingNanos := fun _ _ => oneSecondNanos
  provider := fun _ _ => .ok
  evalStatus := fun _ _ => .Done
  evalEvidence := fun _ _ => none
  evalError := fun _ _ => none
  evalAttemptInc := fun _ _ => 1
  acceptanceFailed := fun _ => []
  persistFails := fun _ => false

/-- Witness for C1: a run stopped by the runtime guard before any iteration
reports completed = false, and indeed its only requirement is still Todo. -/
theorem run_summary_completed_spec_witness :
    (RunSummary.mk false 0 (some (str "reached max_runtime")) none).completed = true ↔
      ((EngineState.new [str "R1"]).all_done = true ∧ false = true) :=
  run_summary_completed_spec witEnvC1 0 [str "R1"] false 1 none (by decide)
    (RunSummary.mk false 0 (some (str "reached max_runtime")) none)
    (EngineState.new [str "R1"]) false rfl

section Lemmas

/-- In a strictly sorted list, an element survives `drop m` iff fewer than
`length - m` elements exceed it: `drop` removes exactly the `m` smallest. -/
theorem mem_drop_sorted_iff :
    ∀ (l : List Str), l.Sorted (· < ·) → ∀ (m : Nat) (x : Str),
      (x ∈ l.drop m ↔
        x ∈ l ∧ (l.filter (fun y => decide (x < y))).length < l.length - m) := by
  intro l
  induction l with
  | nil => intro _ m x; simp
  | cons a t ih =>
    intro hs m x
    have hst : t.Sorted (· < ·) := hs.of_cons
    have hat : ∀ y ∈ t, a < y := (List.sorted_cons.mp hs).1
    cases m with
    | zero =>
      simp only [List.drop_zero, Nat.sub_zero]
      constructor
      · intro hx
        refine ⟨hx, ?_⟩
        by_contra hle
        push_neg at hle
        have hfeq := (List.filter_sublist (l := a :: t)
          (p := fun y => decide (x < y))).eq_of_length_le hle
        rw [← hfeq] at hx
        have := (List.mem_filter.mp hx).2
        simp at this
      · exact And.left
    | succ m =>
      simp only [List.drop_succ_cons]
      rw [ih hst m x]
      by_cases hxa : x = a
      · subst hxa
        constructor
        · rintro ⟨hxt, -⟩
          exact absurd (hat x hxt) (lt_irrefl x)
        · rintro ⟨-, hflt⟩
          exfalso
          have hxx : (decide (x < x)) = false := by simp
          have hfeq : (x :: t).filter (fun y => decide (x < y)) = t := by
            rw [List.filter_cons_of_neg (by simp)]
            apply List.filter_eq_self.mpr
            intro y hy
            simp [hat y hy]
          rw [hfeq] at hflt
          simp at hflt
          omega
      · have hmemt : x ∈ x :: t → True := fun _ => trivial
        constructor
        · rintro ⟨hxt, hlen⟩
          have hax : a < x := hat x hxt
          have hna : ¬ ((decide (x < a)) = true) := by
            simp only [decide_eq_true_eq]
            exact fun h => absurd (lt_trans h hax) (lt_irrefl x)
          have hfeq : (a :: t).filter (fun y => decide (x < y)) =
              t.filter (fun y => decide (x < y)) := List.filter_cons_of_neg hna
          refine ⟨List.mem_cons_of_mem a hxt, ?_⟩
          rw [hfeq]
          simp only [List.length_cons]
          omega
        · rintro ⟨hxl, hlen⟩
          have hxt : x ∈ t := by
            rcases List.mem_cons.mp hxl with h | h
            · exact absurd h hxa
            · exact h
          have hax : a < x := hat x hxt
          have hna : ¬ ((decide (x < a)) = true) := by
            simp only [decide_eq_true_eq]
            exact fun h => absurd (lt_trans h hax) (lt_irrefl x)
          have hfeq : (a :: t).filter (fun y => decide (x < y)) =
              t.filter (fun y => decide (x < y)) := List.filter_cons_of_neg hna
          rw [hfeq] at hlen
          simp only [List.length_cons] at hlen
          exact ⟨hxt, by omega⟩

/-- A strictly sorted list is the sorted listing of its own finset. -/
theorem toFinset_sort_of_sorted (l : List Str) (h : l.Sorted (· < ·)) :
    l.toFinset.sort (fun a b => a ≤ b) = l := by
  have hnd : l.Nodup := h.nodup
  apply List.eq_of_perm_of_sorted (r := fun a b : Str => a ≤ b)
  · apply List.perm_of_nodup_nodup_toFinset_eq (Finset.sort_nodup _ _) hnd
    rw [Finset.sort_toFinset]
  · exact Finset.sort_sorted _ _
  · exact h.imp le_of_lt

/-- Length of a filter over the sorted listing equals the card of the
corresponding finset filter. -/
theorem filter_sort_length_eq_card (dirs : Finset Str) (x : Str) :
    ((dirs.sort (fun a b => a ≤ b)).filter (fun y => decide (x < y))).length =
      (dirs.filter (fun y => x < y)).card := by
  rw [← Finset.length_toList (dirs.filter fun y => x < y)]
  apply List.Perm.length_eq
  apply ((Finset.sort_perm_toList (r := fun a b : Str => a ≤ b) dirs).filter _).trans
  apply List.perm_of_nodup_nodup_toFinset_eq
    ((Finset.nodup_toList dirs).filter _) (Finset.nodup_toList _)
  ext y
  simp [List.mem_filter, Finset.mem_toList, Finset.mem_filter]

/-- Membership in the pruned directory set: an entry survives iff fewer than
`max_keep` entries sort above it — the lexicographically greatest `max_keep`
names are kept, the smallest deleted. -/
theorem mem_prune_iff (K : Nat) (dirs : Finset Str) (x : Str) :
    x ∈ prune_old_checkpoints K dirs ↔
      x ∈ dirs ∧ (dirs.filter (fun y => x < y)).card < K := by
  unfold prune_old_checkpoints
  by_cases hc : dirs.card ≤ K
  · rw [if_pos hc]
    constructor
    · intro hx
      refine ⟨hx, ?_⟩
      have hsub : dirs.filter (fun y => x < y) ⊆ dirs.erase x := by
        intro y hy
        rw [Finset.mem_filter] at hy
        exact Finset.mem_erase.mpr ⟨ne_of_gt hy.2, hy.1⟩
      have h1 : (dirs.filter (fun y => x < y)).card ≤ (dirs.erase x).card :=
        Finset.card_le_card hsub
      have h2 : (dirs.erase x).card = dirs.card - 1 := Finset.card_erase_of_mem hx
      have h3 : 0 < dirs.card := Finset.card_pos.mpr ⟨x, hx⟩
      omega
    · exact And.left
  · rw [if_neg hc]
    push_neg at hc
    rw [List.mem_toFinset]
    rw [mem_drop_sorted_iff _ (Finset.sort_sorted_lt dirs) _ x]
    rw [Finset.mem_sort, Finset.length_sort, filter_sort_length_eq_card]
    constructor
    · rintro ⟨h1, h2⟩
      exact ⟨h1, by omega⟩
    · rintro ⟨h1, h2⟩
      exact ⟨h1, by omega⟩

/-- After any save, at most `max_keep` directories remain. -/
theorem save_card_le (K : Nat) (dirs : Finset Str) (it : Nat) :
    (CheckpointManager.save K dirs it).card ≤ K := by
  unfold CheckpointManager.save prune_old_checkpoints
  by_cases hc : (insert (chooseName dirs it) dirs).card ≤ K
  · rw [if_pos hc]
    exact hc
  · rw [if_neg hc]
    push_neg at hc
    have hnd : (((insert (chooseName dirs it) dirs).sort (fun a b => a ≤ b)).drop
        ((insert (chooseName dirs it) dirs).card - K)).Nodup :=
      (Finset.sort_nodup _ _).sublist (List.drop_sublist _ _)
    rw [List.toFinset_card_of_nodup hnd, List.length_drop, Finset.length_sort]
    omega

/-- Decimal digit characters are ordered like the digits. -/
theorem digitChar_lt (d e : Nat) (hd : d ≤ 9) (he : e ≤ 9) (h : d < e) :
    Nat.digitChar d < Nat.digitChar e := by
  interval_cases d <;> interval_cases e <;> first | omega | decide

/-- The order on `Str` is lexicographic. -/
theorem str_lt_iff_lex (a b : Str) : a < b ↔ List.Lex (fun x y : Char => x < y) a b :=
  Iff.rfl

/-- Checkpoint names of iterations up to 999 are strictly increasing in the
iteration number. -/
theorem checkpoint_name_lt (i j : Nat) (hij : i < j) (hj : j ≤ 999) :
    checkpoint_name i < checkpoint_name j := by
  have hi : i ≤ 999 := by omega
  rw [str_lt_iff_lex]
  unfold checkpoint_name pad3
  rw [if_pos hi, if_pos hj]
  apply List.Lex.append_left
  rcases Nat.lt_trichotomy (i / 100) (j / 100) with h2 | h2 | h2
  · exact List.Lex.rel (digitChar_lt _ _ (by omega) (by omega) h2)
  · rw [h2]
    rcases Nat.lt_trichotomy (i / 10 % 10) (j / 10 % 10) with h1 | h1 | h1
    · exact List.Lex.cons (List.Lex.rel (digitChar_lt _ _ (by omega) (by omega) h1))
    · rw [h1]
      have h0 : i % 10 < j % 10 := by omega
      exact List.Lex.cons (List.Lex.cons
        (List.Lex.rel (digitChar_lt _ _ (by omega) (by omega) h0)))
    · exfalso; omega
  · exfalso; omega

/-- Checkpoint names of distinct iterations up to 999 differ. -/
theorem checkpoint_name_ne (i j : Nat) (hij : i ≠ j) (hi : i ≤ 999) (hj : j ≤ 999) :
    checkpoint_name i ≠ checkpoint_name j := by
  rcases Nat.lt_trichotomy i j with h | h | h
  · exact ne_of_lt (checkpoint_name_lt i j h hj)
  · exact absurd h hij
  · exact (ne_of_lt (checkpoint_name_lt j i h hi)).symm

/-- One save onto the window of the `K` most recent names: with a fresh,
larger iteration the new name is fresh, and pruning keeps exactly the last
`K` of the extended name list. -/
theorem save_window_step (K : Nat) (hK : 1 ≤ K) (processed : List Nat) (j : Nat)
    (hsortp : processed.Sorted (· < ·))
    (hlt : ∀ i ∈ processed, i < j)
    (hb : ∀ i ∈ processed, i ≤ 999) (hjb : j ≤ 999) :
    CheckpointManager.save K
        (((processed.map checkpoint_name).drop (processed.length - K)).toFinset) j =
      (((processed ++ [j]).map checkpoint_name).drop
        ((processed ++ [j]).length - K)).toFinset := by
  have hnames_sorted : (processed.map checkpoint_name).Sorted (· < ·) := by
    rw [List.Sorted, List.pairwise_map]
    refine hsortp.imp_of_mem ?_
    intro a b ha hb' hab
    exact checkpoint_name_lt a b hab (hb b hb')
  have hw_sorted : ((processed.map checkpoint_name).drop
      (processed.length - K)).Sorted (· < ·) :=
    hnames_sorted.sublist (List.drop_sublist _ _)
  have hw_all_lt : ∀ y ∈ (processed.map checkpoint_name).drop (processed.length - K),
      y < checkpoint_name j := by
    intro y hy
    have hy' : y ∈ processed.map checkpoint_name := List.mem_of_mem_drop hy
    obtain ⟨i, hi, rfl⟩ := List.mem_map.mp hy'
    exact checkpoint_name_lt i j (hlt i hi) hjb
  have hnm_notin : checkpoint_name j ∉
      ((processed.map checkpoint_name).drop (processed.length - K)).toFinset := by
    rw [List.mem_toFinset]
    intro h
    exact lt_irrefl _ (hw_all_lt _ h)
  have hchoose : chooseName
      ((processed.map checkpoint_name).drop (processed.length - K)).toFinset j =
      checkpoint_name j := by
    unfold chooseName
    rw [if_neg hnm_notin]
  unfold CheckpointManager.save
  rw [hchoose]
  have hins : insert (checkpoint_name j)
      ((processed.map checkpoint_name).drop (processed.length - K)).toFinset =
      (((processed.map checkpoint_name).drop (processed.length - K)) ++
        [checkpoint_name j]).toFinset := by
    ext y
    simp [or_comm]
  rw [hins]
  have hL_sorted : (((processed.map checkpoint_name).drop (processed.length - K)) ++
      [checkpoint_name j]).Sorted (· < ·) := by
    rw [List.Sorted, List.pairwise_append]
    refine ⟨hw_sorted, List.pairwise_singleton _ _, ?_⟩
    intro a ha b hb'
    simp only [List.mem_singleton] at hb'
    subst hb'
    exact hw_all_lt a ha
  have hL_nd := hL_sorted.nodup
  have hLcard := List.toFinset_card_of_nodup hL_nd
  have hwlen : ((processed.map checkpoint_name).drop (processed.length - K)).length =
      processed.length - (processed.length - K) := by
    rw [List.length_drop, List.length_map]
  unfold prune_old_checkpoints
  by_cases hcase : ((((processed.map checkpoint_name).drop (processed.length - K)) ++
      [checkpoint_name j]).toFinset).card ≤ K
  · rw [if_pos hcase]
    rw [hLcard] at hcase
    rw [List.length_append, List.length_singleton] at hcase
    have hplen : processed.length < K := by omega
    have h0 : (processed ++ [j]).length - K = 0 := by
      rw [List.length_append, List.length_singleton]
      omega
    rw [h0, List.drop_zero]
    have hz : processed.length - K = 0 := by omega
    rw [hz, List.drop_zero]
    rw [List.map_append]
    rfl
  · rw [if_neg hcase]
    rw [hLcard] at hcase ⊢
    push_neg at hcase
    rw [List.length_append, List.length_singleton] at hcase
    have hplen : K ≤ processed.length := by omega
    rw [toFinset_sort_of_sorted _ hL_sorted]
    have hlen : (((processed.map checkpoint_name).drop (processed.length - K)) ++
        [checkpoint_name j]).length = K + 1 := by
      rw [List.length_append, List.length_singleton]
      omega
    rw [hlen]
    have h1 : K + 1 - K = 1 := by omega
    rw [h1]
    have hwne : 1 ≤ ((processed.map checkpoint_name).drop (processed.length - K)).length := by
      omega
    rw [List.drop_append_of_le_length hwne]
    have hidx : (processed ++ [j]).length - K = processed.length + 1 - K := by
      rw [List.length_append, List.length_singleton]
    rw [hidx, List.map_append]
    have hidx2 : processed.length + 1 - K ≤ (processed.map checkpoint_name).length := by
      rw [List.length_map]
      omega
    rw [List.drop_append_of_le_length hidx2]
    congr 2
    rw [List.drop_drop]
    congr 1
    omega

/-- Save-sequence invariant: after saving a strictly increasing run of
iteration numbers (all at most 999), the directory set is the window of the
last `K` names. -/
theorem saveSeq_window (K : Nat) (hK : 1 ≤ K) :
    ∀ (rest processed : List Nat),
      ((processed ++ rest).Sorted (· < ·)) →
      (∀ i ∈ processed ++ rest, i ≤ 999) →
      saveSeq K
          (((processed.map checkpoint_name).drop (processed.length - K)).toFinset) rest =
        (((processed ++ rest).map checkpoint_name).drop
          ((processed ++ rest).length - K)).toFinset := by
  intro rest
  induction rest with
  | nil =>
    intro processed h1 h2
    simp [saveSeq]
  | cons j rest' ih =>
    intro processed hsort hb
    have hassoc : processed ++ j :: rest' = (processed ++ [j]) ++ rest' := by
      simp
    have hsort' : ((processed ++ [j]) ++ rest').Sorted (· < ·) := by
      rw [← hassoc]
      exact hsort
    have hb' : ∀ i ∈ (processed ++ [j]) ++ rest', i ≤ 999 := by
      intro i hi
      apply hb
      rw [hassoc]
      exact hi
    have hps : processed.Sorted (· < ·) := by
      rw [List.Sorted, List.pairwise_append] at hsort
      exact hsort.1
    have hlt : ∀ i ∈ processed, i < j := by
      rw [List.Sorted, List.pairwise_append] at hsort
      intro i hi
      exact hsort.2.2 i hi j (by simp)
    have hpb : ∀ i ∈ processed, i ≤ 999 := by
      intro i hi
      exact hb i (List.mem_append_left _ hi)
    have hjb : j ≤ 999 := hb j (by simp)
    have hstep := save_window_step K hK processed j hps hlt hpb hjb
    have hfold : saveSeq K
        (((processed.map checkpoint_name).drop (processed.length - K)).toFinset)
        (j :: rest') =
      saveSeq K
        ((((processed ++ [j]).map checkpoint_name).drop
          ((processed ++ [j]).length - K)).toFinset) rest' := by
      unfold saveSeq
      rw [List.foldl_cons, hstep]
    rw [hfold, ih (processed ++ [j]) hsort' hb', hassoc]

end Lemmas

/-- C6: after every successful save with retention count K (the manager
clamps K to at least 1), at most K directories remain under the checkpoint
root; the entries kept are exactly the K lexicographically greatest names
(those with fewer than K names above them), the smallest being deleted; and
saving K + 3 strictly increasing iterations (≤ 999, where zero-padded names
sort like the numbers) into an empty root leaves exactly the K most recently
created checkpoint directories. -/
theorem checkpoint_retention_spec :
    (∀ (K : Nat) (dirs : Finset Str) (it : Nat),
      (CheckpointManager.save (CheckpointManager.keepOf K) dirs it).card ≤
        CheckpointManager.keepOf K) ∧
    (∀ (K : Nat) (dirs : Finset Str) (it : Nat) (x : Str),
      x ∈ CheckpointManager.save K dirs it ↔
        x ∈ insert (chooseName dirs it) dirs ∧
          ((insert (chooseName dirs it) dirs).filter (fun y => x < y)).card < K) ∧
    (∀ (K : Nat) (its : List Nat), 1 ≤ K → its.Sorted (· < ·) →
      (∀ i ∈ its, i ≤ 999) → its.length = K + 3 →
      saveSeq K ∅ its = ((its.map checkpoint_name).drop 3).toFinset ∧
      (saveSeq K ∅ its).card = K) := by
  refine ⟨?_, ?_, ?_⟩
  · intro K dirs it
    exact save_card_le _ dirs it
  · intro K dirs it x
    exact mem_prune_iff K (insert (chooseName dirs it) dirs) x
  · intro K its hK hsort hb hlen
    have hempty : (∅ : Finset Str) =
        ((([] : List Nat).map checkpoint_name).drop (([] : List Nat).length - K)).toFinset := by
      simp
    have hmain := saveSeq_window K hK its [] (by simpa using hsort) (by simpa using hb)
    rw [hempty]
    simp only [List.nil_append] at hmain
    rw [hmain, hlen]
    have h3 : K + 3 - K = 3 := by omega
    rw [h3]
    refine ⟨rfl, ?_⟩
    have hnames_sorted : (its.map checkpoint_name).Sorted (· < ·) := by
      rw [List.Sorted, List.pairwise_map]
      refine hsort.imp_of_mem ?_
      intro a b _ hb' hab
      exact checkpoint_name_lt a b hab (hb b hb')
    have hnd : ((its.map checkpoint_name).drop 3).Nodup :=
      (hnames_sorted.sublist (List.drop_sublist _ _)).nodup
    rw [List.toFinset_card_of_nodup hnd, List.length_drop, List.length_map, hlen]
    omega

/-- Witness for C6: retention 1, four increasing saves leave exactly the last
checkpoint. -/
theorem checkpoint_retention_spec_witness :
    saveSeq 1 ∅ [1, 2, 3, 4] = (([1, 2, 3, 4].map checkpoint_name).drop 3).toFinset ∧
    (saveSeq 1 ∅ [1, 2, 3, 4]).card = 1 :=
  checkpoint_retention_spec.2.2 1 [1, 2, 3, 4] (by decide) (by decide) (by decide) rfl

end AutoCode
